import Mathlib

/-!
# Backlog Pilot — formal model of the board store and its operations

This file gives a shallow embedding of the server logic of the Backlog
Pilot repository (`server/src/app.js` together with the file-backed store
it requires) and of the client drag-end handler, and proves the ordering,
access-control and error-handling properties stated about them.

Modelling conventions:
* JavaScript strings are `String`, numbers carrying positions are `Int`,
  timestamps are `Nat`.
* The flat-file store (`{ projects, items }`) is the `StoreData` structure;
  every mutating operation takes the current store and returns the new one,
  mirroring the read-then-write-back discipline of the source.
* `throw new Error(msg)` is `Except.error msg`; an operation that throws
  before `writeData` leaves the store untouched, so the error branch simply
  does not produce a new store.
* `randomUUID()` is modelled as an explicitly supplied identifier; where a
  proof needs the identifier to be fresh (the contract of `randomUUID`),
  the freshness is an explicit hypothesis.
* `new Date().toISOString()` is modelled as an explicitly supplied `Nat`.
-/

namespace BacklogPilot

/-- JavaScript `String.prototype.trim`: strip leading and trailing
whitespace.  Written over the character list so that it evaluates inside
the kernel. -/
def jsTrim (s : String) : String :=
  ⟨((s.data.dropWhile Char.isWhitespace).reverse.dropWhile Char.isWhitespace).reverse⟩

/-- `VALID_STATUSES` from the store module: the four fixed columns. -/
def VALID_STATUSES : List String := ["backlog", "in_progress", "review", "done"]

/-- A project record as stored on disk (`createProjectSync` shape). -/
structure Project where
  id : String
  name : String
  secretKey : String
  createdAt : Nat
deriving Repr, DecidableEq

/-- An item (card) record as stored on disk (`createItemSync` shape). -/
structure Item where
  id : String
  projectId : String
  title : String
  description : String
  status : String
  position : Int
  createdAt : Nat
  updatedAt : Nat
deriving Repr, DecidableEq

/-- The flat-file database document: `{ projects: [...], items: [...] }`. -/
structure StoreData where
  projects : List Project
  items : List Item
deriving Repr, DecidableEq

/-- `DEFAULT_DATA`: the empty store document. -/
def DEFAULT_DATA : StoreData := { projects := [], items := [] }

/-- Index of a status in `VALID_STATUSES`; unknown statuses map to 0
(`statusOrder.get(a.status) ?? 0` in `sortItems`). -/
def statusIndex (s : String) : Nat :=
  match VALID_STATUSES.findIdx? (fun t => t == s) with
  | some i => i
  | none => 0

/-- The comparator of `sortItems`: status column order first, then
position.  The JS comparator returns a signed difference; a stable sort
with that comparator is a stable sort by the boolean `≤` on the pair
`(statusIndex, position)`. -/
def itemLe (a b : Item) : Bool :=
  decide (statusIndex a.status < statusIndex b.status) ||
    (decide (statusIndex a.status = statusIndex b.status) &&
      decide (a.position ≤ b.position))

/-- The comparator as a decidable relation. -/
def itemRel (a b : Item) : Prop := itemLe a b = true

instance (a b : Item) : Decidable (itemRel a b) := by
  unfold itemRel
  infer_instance

/-- `sortItems`: `[...items].sort(comparator)`.  JavaScript `Array.sort`
is a stable sort, and the stable sort of a list by a total transitive
comparator is unique, so it is modelled by insertion sort — which is
stable — over the comparator's relation. -/
def sortItems (items : List Item) : List Item :=
  List.insertionSort itemRel items

/-- One step of `groupItemsByStatus`: push an item onto the column keyed
by `s`, creating the key at the end when it is absent (JS object key
insertion order). -/
def pushToColumn : List (String × List Item) → String → Item → List (String × List Item)
  | [], s, it => [(s, [it])]
  | (k, col) :: rest, s, it =>
    if k == s then (k, col ++ [it]) :: rest
    else (k, col) :: pushToColumn rest s it

/-- `groupItemsByStatus`: fold the items into an insertion-ordered
association list of columns, starting from the four fixed statuses. -/
def groupItemsByStatus (items : List Item) : List (String × List Item) :=
  items.foldl (fun acc it => pushToColumn acc it.status it)
    (VALID_STATUSES.map (fun s => (s, ([] : List Item))))

/-- Read one column out of a grouped response (`columns[status]`),
defaulting to the empty list for an absent key. -/
def getColumn (columns : List (String × List Item)) (s : String) : List Item :=
  match columns.find? (fun kv => kv.1 == s) with
  | some kv => kv.2
  | none => []

/-! ## Store operations (file-backed, synchronous variant) -/

/-- `listProjectsSync`. -/
def listProjectsSync (data : StoreData) : List Project :=
  data.projects

/-- `getProjectByIdSync`: first project with the given id, or `null`. -/
def getProjectByIdSync (data : StoreData) (projectId : String) : Option Project :=
  data.projects.find? (fun p => p.id == projectId)

/-- `getProjectBySecretSync`: trim the key, reject the empty key, then
find the first project with that secret. -/
def getProjectBySecretSync (data : StoreData) (secretKey : String) : Option Project :=
  let normalizedKey := jsTrim secretKey
  if normalizedKey == "" then none
  else data.projects.find? (fun p => p.secretKey == normalizedKey)

/-- `createProjectSync`.  `newId` stands for `randomUUID()`, `now` for
`new Date().toISOString()`.  An error is thrown before `writeData`, so the
error branch produces no new store. -/
def createProjectSync (data : StoreData) (name secretKey : String)
    (newId : String) (now : Nat) : Except String (Project × StoreData) :=
  let normalizedName := jsTrim name
  let normalizedKey := jsTrim secretKey
  if normalizedName == "" then .error "Project name is required."
  else if normalizedKey == "" then .error "Secret key is required."
  else if (data.projects.find? (fun p => p.secretKey == normalizedKey)).isSome then
    .error "Secret key already exists. Choose a different one."
  else
    let newProject : Project :=
      { id := newId, name := normalizedName, secretKey := normalizedKey, createdAt := now }
    .ok (newProject, { data with projects := data.projects ++ [newProject] })

/-- `deleteProjectSync`: remove the project (splice) and every item owned
by it; report whether a project was found. -/
def deleteProjectSync (data : StoreData) (projectId : String) : Bool × StoreData :=
  match data.projects.findIdx? (fun p => p.id == projectId) with
  | none => (false, data)
  | some i =>
    (true,
      { projects := data.projects.eraseIdx i,
        items := data.items.filter (fun it => !(it.projectId == projectId)) })

/-- The items of one `(project, status)` pair, in store order. -/
def columnItems (items : List Item) (projectId status : String) : List Item :=
  items.filter (fun it => it.projectId == projectId && it.status == status)

/-- `nextPositionForStatus`: 1 for an empty pair, otherwise the maximum
position in the pair plus one (`Math.max(...positions) + 1`). -/
def nextPositionForStatus (data : StoreData) (projectId status : String) : Int :=
  match (columnItems data.items projectId status).map (fun it => it.position) with
  | [] => 1
  | p :: ps => ps.foldl max p + 1

/-- `getItemsByProjectSync`: the project's items sorted by
`(status order, position)`. -/
def getItemsByProjectSync (data : StoreData) (projectId : String) : List Item :=
  sortItems (data.items.filter (fun it => it.projectId == projectId))

/-- `createItemSync`.  Checks run in source order: empty title, invalid
status, missing project; only then is the item appended and written. -/
def createItemSync (data : StoreData) (projectId title description status : String)
    (newId : String) (now : Nat) : Except String (Item × StoreData) :=
  let normalizedTitle := jsTrim title
  if normalizedTitle == "" then .error "Item title is required."
  else if !(VALID_STATUSES.contains status) then .error ("Invalid status: " ++ status)
  else if (data.projects.find? (fun p => p.id == projectId)).isNone then
    .error "Project not found."
  else
    let newItem : Item :=
      { id := newId, projectId := projectId, title := normalizedTitle,
        description := jsTrim description, status := status,
        position := nextPositionForStatus data projectId status,
        createdAt := now, updatedAt := now }
    .ok (newItem, { data with items := data.items ++ [newItem] })

/-- A PATCH body: each field is present (`some`) or absent (`none`),
mirroring the `updates.x !== undefined` tests. -/
structure ItemUpdates where
  title : Option String := none
  description : Option String := none
  status : Option String := none
deriving Repr, DecidableEq

/-- The `updates.title !== undefined` statement of `updateItemSync`:
reject an empty trimmed title, otherwise replace the title. -/
def applyTitleUpdate (item : Item) (t? : Option String) : Except String Item :=
  match t? with
  | none => .ok item
  | some t =>
    let newTitle := jsTrim t
    if newTitle == "" then .error "Item title cannot be empty."
    else .ok { item with title := newTitle }

/-- The `updates.description !== undefined` statement. -/
def applyDescriptionUpdate (item : Item) (d? : Option String) : Item :=
  match d? with
  | none => item
  | some dd => { item with description := jsTrim dd }

/-- The `updates.status !== undefined` statement: validate the status,
compare it against the *original* item's status (`item.status` in the
source), and on a real change re-home the item with the `max+1` position
of the destination pair computed over the pre-update store. -/
def applyStatusUpdate (data : StoreData) (projectId : String) (orig : Item)
    (item : Item) (s? : Option String) : Except String Item :=
  match s? with
  | none => .ok item
  | some s =>
    if !(VALID_STATUSES.contains s) then .error ("Invalid status: " ++ s)
    else if s == orig.status then .ok item
    else .ok { item with status := s,
                         position := nextPositionForStatus data projectId s }

/-- The body of `updateItemSync` acting on the found item: the three
update statements in source order, followed by the unconditional
`updatedAt` stamp. -/
def applyItemUpdates (data : StoreData) (projectId : String) (item : Item)
    (updates : ItemUpdates) (now : Nat) : Except String Item :=
  match applyTitleUpdate item updates.title with
  | .error e => .error e
  | .ok it1 =>
    match applyStatusUpdate data projectId item
        (applyDescriptionUpdate it1 updates.description) updates.status with
    | .error e => .error e
    | .ok it3 => .ok { it3 with updatedAt := now }

/-- Replace the first item satisfying `pred` by the result of `f` on it
(`findIndex` followed by `data.items[itemIndex] = updatedItem`); error
when no item matches or when `f` throws. -/
def updateFirstItem (pred : Item → Bool) (f : Item → Except String Item) :
    List Item → Except String (Item × List Item)
  | [] => .error "Item not found."
  | it :: rest =>
    if pred it then
      match f it with
      | .error e => .error e
      | .ok it' => .ok (it', it' :: rest)
    else
      match updateFirstItem pred f rest with
      | .error e => .error e
      | .ok (u, rest') => .ok (u, it :: rest')

/-- `updateItemSync`. -/
def updateItemSync (data : StoreData) (projectId itemId : String)
    (updates : ItemUpdates) (now : Nat) : Except String (Item × StoreData) :=
  match updateFirstItem (fun it => it.id == itemId && it.projectId == projectId)
      (fun it => applyItemUpdates data projectId it updates now) data.items with
  | .error e => .error e
  | .ok (updated, items') => .ok (updated, { data with items := items' })

/-- Remove the first item satisfying `pred` (`findIndex` + `splice`). -/
def removeFirstItem (pred : Item → Bool) : List Item → Option (Item × List Item)
  | [] => none
  | it :: rest =>
    if pred it then some (it, rest)
    else
      match removeFirstItem pred rest with
      | none => none
      | some (r, rest') => some (r, it :: rest')

/-- `deleteItemSync`. -/
def deleteItemSync (data : StoreData) (projectId itemId : String) :
    Except String (Item × StoreData) :=
  match removeFirstItem (fun it => it.id == itemId && it.projectId == projectId)
      data.items with
  | none => .error "Item not found."
  | some (removed, items') => .ok (removed, { data with items := items' })

/-! ## Bulk reorder -/

/-- The `columns` payload of a reorder request: one ordered id list per
fixed status.  `reorderItemsSync` only ever reads the four fixed keys, and
treats a non-array value as the empty list, so a record of four lists is a
faithful model of the request object. -/
structure ReorderColumns where
  backlog : List String := []
  in_progress : List String := []
  review : List String := []
  done : List String := []
deriving Repr, DecidableEq

/-- `columns[status]` for the four fixed statuses. -/
def columnIds (columns : ReorderColumns) (status : String) : List String :=
  if status == "backlog" then columns.backlog
  else if status == "in_progress" then columns.in_progress
  else if status == "review" then columns.review
  else if status == "done" then columns.done
  else []

/-- One write of the reorder loop: find the first item of the project with
the given id and set its status, position and update time in place; items
that match nothing are skipped silently. -/
def setItemOrder (itemId projectId status : String) (pos : Int) (now : Nat) :
    List Item → List Item
  | [] => []
  | it :: rest =>
    if it.id == itemId && it.projectId == projectId then
      { it with status := status, position := pos, updatedAt := now } :: rest
    else it :: setItemOrder itemId projectId status pos now rest

/-- The inner loop of `reorderItemsSync` over one column's id list,
carrying the running index (`orderedIds.forEach((itemId, index) => ...)`,
writing `position = index + 1`). -/
def applyColumnOrder (projectId status : String) (now : Nat) :
    List String → Int → List Item → List Item
  | [], _, items => items
  | itemId :: rest, index, items =>
    applyColumnOrder projectId status now rest (index + 1)
      (setItemOrder itemId projectId status (index + 1) now items)

/-- The full write pass of `reorderItemsSync` over the four statuses. -/
def applyReorder (projectId : String) (columns : ReorderColumns) (now : Nat)
    (items : List Item) : List Item :=
  VALID_STATUSES.foldl
    (fun acc status => applyColumnOrder projectId status now (columnIds columns status) 0 acc)
    items

/-- `reorderItemsSync`: check the project exists, run the write pass,
persist, and return the project's items grouped input (sorted). -/
def reorderItemsSync (data : StoreData) (projectId : String)
    (columns : ReorderColumns) (now : Nat) :
    Except String (List Item × StoreData) :=
  if !(data.projects.any (fun p => p.id == projectId)) then .error "Project not found."
  else
    let data' : StoreData :=
      { data with items := applyReorder projectId columns now data.items }
    .ok (getItemsByProjectSync data' projectId, data')

/-! ## Express layer -/

/-- A project object as returned by the API: `sanitizeProject` destructures
the secret key away, so the response shape has no secret field at all. -/
structure PublicProject where
  id : String
  name : String
  createdAt : Nat
deriving Repr, DecidableEq

/-- `sanitizeProject` on a present project. -/
def sanitizeProject (p : Project) : PublicProject :=
  { id := p.id, name := p.name, createdAt := p.createdAt }

/-- `requireProjectSecret` middleware: resolve the project by the path id
(404 when absent), then compare its stored secret with the trimmed
`x-project-secret` header (403 on mismatch); an absent header reads as the
empty string.  The error value is the HTTP status code sent. -/
def requireProjectSecret (data : StoreData) (projectId : String)
    (headerSecret : Option String) : Except Nat Project :=
  let providedSecret := jsTrim (headerSecret.getD "")
  match getProjectByIdSync data projectId with
  | none => .error 404
  | some project =>
    if !(project.secretKey == providedSecret) then .error 403
    else .ok project

/-- `POST /api/projects`: create and return the sanitized project. -/
def createProjectRoute (data : StoreData) (name secretKey : String)
    (newId : String) (now : Nat) : Except String (PublicProject × StoreData) :=
  match createProjectSync data name secretKey newId now with
  | .error e => .error e
  | .ok (p, data') => .ok (sanitizeProject p, data')

/-- `POST /api/access`: resolve by secret and return the sanitized
project, 404 when the secret matches nothing. -/
def accessRoute (data : StoreData) (secretKey : String) : Except Nat PublicProject :=
  match getProjectBySecretSync data secretKey with
  | none => .error 404
  | some p => .ok (sanitizeProject p)

/-- `GET /api/projects/:projectId`: the guarded fetch route. -/
def getProjectRoute (data : StoreData) (projectId : String)
    (headerSecret : Option String) : Except Nat PublicProject :=
  match requireProjectSecret data projectId headerSecret with
  | .error code => .error code
  | .ok p => .ok (sanitizeProject p)

/-- `GET /api/projects`: list all projects, sanitized. -/
def listProjectsRoute (data : StoreData) : List PublicProject :=
  (listProjectsSync data).map sanitizeProject

/-! ## Client board state and the drag-end handler -/

/-- The client's column state: one ordered item list per fixed status.
`COLUMN_ORDER` (imported from the client constants module, not present
under `src/`) is, modelled from the spec, the same four fixed statuses as
the server's `VALID_STATUSES`; `cloneColumns`/`columnsToIds` iterate
exactly these four keys. -/
structure ClientColumns where
  backlog : List Item := []
  in_progress : List Item := []
  review : List Item := []
  done : List Item := []
deriving Repr, DecidableEq

/-- `columns[droppableId]` for the four fixed statuses. -/
def clientColumn (c : ClientColumns) (status : String) : List Item :=
  if status == "backlog" then c.backlog
  else if status == "in_progress" then c.in_progress
  else if status == "review" then c.review
  else if status == "done" then c.done
  else []

/-- Replace one column of the client state. -/
def setClientColumn (c : ClientColumns) (status : String) (items : List Item) :
    ClientColumns :=
  if status == "backlog" then { c with backlog := items }
  else if status == "in_progress" then { c with in_progress := items }
  else if status == "review" then { c with review := items }
  else if status == "done" then { c with done := items }
  else c

/-- JS `array.splice(index, 0, x)`: insert at `index`, clamped to the end
of the array when `index` exceeds its length. -/
def spliceInsert (l : List Item) (index : Nat) (x : Item) : List Item :=
  l.take index ++ x :: l.drop index

/-- `columnsToIds`: the column-to-ordered-ids mapping sent to the bulk
reorder endpoint. -/
def columnsToIds (c : ClientColumns) : ReorderColumns :=
  { backlog := c.backlog.map (fun it => it.id),
    in_progress := c.in_progress.map (fun it => it.id),
    review := c.review.map (fun it => it.id),
    done := c.done.map (fun it => it.id) }

/-- The observable effect of one `handleDragEnd` invocation before the
server answers: the optimistic column state installed by `setColumns` (if
any) and the reorder payload sent over the network (if any). -/
structure DragEffect where
  setColumns : Option ClientColumns
  request : Option ReorderColumns
deriving Repr, DecidableEq

/-- A drop location (`droppableId`, `index`). -/
structure DropSpot where
  droppableId : String
  index : Nat
deriving Repr, DecidableEq

/-- `handleDragEnd`: no-op on a missing destination or a drop back onto
the same column and index; silent abort when no item sits at the source
index; otherwise splice the item out of the source column, restamp its
status, splice it into the destination column, install that optimistic
state and send `columnsToIds` of it. -/
def handleDragEnd (activeColumns : ClientColumns) (source : DropSpot)
    (destination : Option DropSpot) : DragEffect :=
  match destination with
  | none => { setColumns := none, request := none }
  | some dest =>
    if dest.droppableId == source.droppableId && dest.index == source.index then
      { setColumns := none, request := none }
    else
      let sourceItems := clientColumn activeColumns source.droppableId
      match sourceItems[source.index]? with
      | none => { setColumns := none, request := none }
      | some moved =>
        let moved' := { moved with status := dest.droppableId }
        let afterRemove :=
          setClientColumn activeColumns source.droppableId
            (sourceItems.eraseIdx source.index)
        let optimistic :=
          setClientColumn afterRemove dest.droppableId
            (spliceInsert (clientColumn afterRemove dest.droppableId) dest.index moved')
        { setColumns := some optimistic, request := some (columnsToIds optimistic) }

/-! ## Reachable store states -/

/-- The store states reachable from the empty document through the store
operations, with `randomUUID()` modelled as an identifier unused by the
respective record kind (its contract). -/
inductive Reach : StoreData → Prop where
  | empty : Reach DEFAULT_DATA
  | createProject {d : StoreData} {name key newId : String} {now : Nat}
      {p : Project} {d' : StoreData} : Reach d →
      (∀ q ∈ d.projects, q.id ≠ newId) →
      createProjectSync d name key newId now = .ok (p, d') → Reach d'
  | createItem {d : StoreData} {pid title desc status newId : String} {now : Nat}
      {it : Item} {d' : StoreData} : Reach d →
      (∀ j ∈ d.items, j.id ≠ newId) →
      createItemSync d pid title desc status newId now = .ok (it, d') → Reach d'
  | updateItem {d : StoreData} {pid iid : String} {upd : ItemUpdates} {now : Nat}
      {it : Item} {d' : StoreData} : Reach d →
      updateItemSync d pid iid upd now = .ok (it, d') → Reach d'
  | deleteItem {d : StoreData} {pid iid : String} {it : Item} {d' : StoreData} :
      Reach d → deleteItemSync d pid iid = .ok (it, d') → Reach d'
  | deleteProject {d : StoreData} {pid : String} : Reach d →
      Reach (deleteProjectSync d pid).2
  | reorder {d : StoreData} {pid : String} {cols : ReorderColumns} {now : Nat}
      {resp : List Item} {d' : StoreData} : Reach d →
      reorderItemsSync d pid cols now = .ok (resp, d') → Reach d'

/-- The ordering invariant of the data model: within every
`(project, status)` pair, no two items share a position. -/
def OrderInvariant (d : StoreData) : Prop :=
  ∀ projectId status : String,
    ((columnItems d.items projectId status).map (fun it => it.position)).Nodup

instance (d : StoreData) : Decidable (OrderInvariant d) := by
  unfold OrderInvariant
  refine decidable_of_iff
    (∀ projectId ∈ d.items.map (fun it => it.projectId),
      ∀ status ∈ d.items.map (fun it => it.status),
        ((columnItems d.items projectId status).map (fun it => it.position)).Nodup) ?_
  constructor
  · intro h pid status
    by_cases hpid : pid ∈ d.items.map (fun it => it.projectId)
    · by_cases hst : status ∈ d.items.map (fun it => it.status)
      · exact h pid hpid status hst
      · have : columnItems d.items pid status = [] := by
          refine List.filter_eq_nil_iff.mpr (fun it hit => ?_)
          simp only [Bool.and_eq_true, beq_iff_eq, not_and]
          intro _ hs
          exact absurd (List.mem_map.mpr ⟨it, hit, hs⟩) hst
        simp [this]
    · have : columnItems d.items pid status = [] := by
        refine List.filter_eq_nil_iff.mpr (fun it hit => ?_)
        simp only [Bool.and_eq_true, beq_iff_eq, not_and]
        intro hp
        exact absurd (List.mem_map.mpr ⟨it, hit, hp⟩) hpid
      simp [this]
  · intro h pid _ status _
    exact h pid status

/-- The `POST /api/projects` handler as an endpoint: on a thrown error the
route answers 400 and, the throw having happened before `writeData`, the
store on disk is unchanged. -/
def createProjectApi (data : StoreData) (name secretKey : String)
    (newId : String) (now : Nat) : Except String Project × StoreData :=
  match createProjectSync data name secretKey newId now with
  | .error e => (.error e, data)
  | .ok (p, d') => (.ok p, d')

/-! ## Helper lemmas -/

theorem le_foldl_max (p : Int) (ps : List Int) : ∀ x ∈ p :: ps, x ≤ ps.foldl max p := by
  induction ps generalizing p with
  | nil => intro x hx; rw [List.mem_singleton] at hx; simp [hx]
  | cons q qs ih =>
    intro x hx
    simp only [List.foldl_cons]
    rcases List.mem_cons.mp hx with h | h
    · rw [h]
      exact le_trans (le_max_left p q) (ih (max p q) _ (List.mem_cons_self _ _))
    · rcases List.mem_cons.mp h with h2 | h2
      · rw [h2]
        exact le_trans (le_max_right p q) (ih (max p q) _ (List.mem_cons_self _ _))
      · exact ih (max p q) x (List.mem_cons.mpr (Or.inr h2))

theorem foldl_max_mem (p : Int) (ps : List Int) : ps.foldl max p ∈ p :: ps := by
  induction ps generalizing p with
  | nil => simp
  | cons q qs ih =>
    simp only [List.foldl_cons]
    rcases List.mem_cons.mp (ih (max p q)) with h | h
    · rcases max_choice p q with hm | hm
      · exact List.mem_cons.mpr (Or.inl (h.trans hm))
      · exact List.mem_cons.mpr (Or.inr (List.mem_cons.mpr (Or.inl (h.trans hm))))
    · exact List.mem_cons.mpr (Or.inr (List.mem_cons.mpr (Or.inr h)))

/-- On an empty `(project, status)` pair the computed position is 1. -/
theorem nextPositionForStatus_of_empty {d : StoreData} {pid s : String}
    (h : columnItems d.items pid s = []) : nextPositionForStatus d pid s = 1 := by
  simp [nextPositionForStatus, h]

/-- On a non-empty pair the computed position is `m + 1` for the maximum
member `m` of the pair's positions. -/
theorem nextPositionForStatus_of_ne_empty {d : StoreData} {pid s : String}
    (h : columnItems d.items pid s ≠ []) :
    ∃ m, m ∈ (columnItems d.items pid s).map (fun it => it.position) ∧
      (∀ x ∈ (columnItems d.items pid s).map (fun it => it.position), x ≤ m) ∧
      nextPositionForStatus d pid s = m + 1 := by
  obtain ⟨x, xs, hcol⟩ : ∃ x xs,
      (columnItems d.items pid s).map (fun it => it.position) = x :: xs := by
    cases hm : (columnItems d.items pid s).map (fun it => it.position) with
    | nil => exact absurd (List.map_eq_nil.mp hm) h
    | cons a as => exact ⟨a, as, rfl⟩
  refine ⟨xs.foldl max x, hcol ▸ foldl_max_mem x xs, ?_, ?_⟩
  · intro y hy
    exact le_foldl_max x xs y (hcol ▸ hy)
  · simp only [nextPositionForStatus, hcol]

/-- Every item of a `(project, status)` pair sits strictly below the
`max + 1` position computed for the pair. -/
theorem lt_nextPositionForStatus {d : StoreData} {pid s : String} :
    ∀ it0 ∈ columnItems d.items pid s, it0.position < nextPositionForStatus d pid s := by
  intro it0 h0
  by_cases hc : columnItems d.items pid s = []
  · rw [hc] at h0
    exact absurd h0 (List.not_mem_nil _)
  · obtain ⟨m, _, hub, heq⟩ := nextPositionForStatus_of_ne_empty hc
    have := hub _ (List.mem_map_of_mem (fun it => it.position) h0)
    omega

/-! ## C7 — responses never carry the secret key -/

/-- C7: every API response carrying a project object (creation, access by
secret, guarded fetch, listing) carries exactly `sanitizeProject` of the
stored project, and `sanitizeProject` ignores the secret key entirely
while preserving id, name and creation timestamp. -/
theorem project_responses_hide_secret :
    (∀ (p : Project) (k : String),
        sanitizeProject { p with secretKey := k } = sanitizeProject p) ∧
    (∀ p : Project, (sanitizeProject p).id = p.id ∧ (sanitizeProject p).name = p.name ∧
        (sanitizeProject p).createdAt = p.createdAt) ∧
    (∀ d name key newId now pub d',
        createProjectRoute d name key newId now = .ok (pub, d') →
        ∃ pr, createProjectSync d name key newId now = .ok (pr, d') ∧
          pub = sanitizeProject pr) ∧
    (∀ d key pub, accessRoute d key = .ok pub →
        ∃ pr, getProjectBySecretSync d key = some pr ∧ pub = sanitizeProject pr) ∧
    (∀ d pid h pub, getProjectRoute d pid h = .ok pub →
        ∃ pr, requireProjectSecret d pid h = .ok pr ∧ pub = sanitizeProject pr) ∧
    (∀ d, listProjectsRoute d = (listProjectsSync d).map sanitizeProject) := by
  refine ⟨fun p k => rfl, fun p => ⟨rfl, rfl, rfl⟩, ?_, ?_, ?_, fun d => rfl⟩
  · intro d name key newId now pub d' h
    unfold createProjectRoute at h
    cases hc : createProjectSync d name key newId now with
    | error e => rw [hc] at h; exact absurd h (by simp)
    | ok pd =>
      rw [hc] at h
      obtain ⟨p, d2⟩ := pd
      simp only [Except.ok.injEq, Prod.mk.injEq] at h
      exact ⟨p, by rw [h.2], h.1.symm⟩
  · intro d key pub h
    unfold accessRoute at h
    cases hc : getProjectBySecretSync d key with
    | none => rw [hc] at h; exact absurd h (by simp)
    | some pr =>
      rw [hc] at h
      simp only [Except.ok.injEq] at h
      exact ⟨pr, rfl, h.symm⟩
  · intro d pid hd pub h
    unfold getProjectRoute at h
    cases hc : requireProjectSecret d pid hd with
    | error e => rw [hc] at h; exact absurd h (by simp)
    | ok pr =>
      rw [hc] at h
      simp only [Except.ok.injEq] at h
      exact ⟨pr, rfl, h.symm⟩

/-- Witness for C7 at concrete inputs. -/
theorem project_responses_hide_secret_witness :
    sanitizeProject ⟨"p1", "N", "other", 3⟩ = sanitizeProject ⟨"p1", "N", "s", 3⟩ ∧
    ∃ pr, createProjectSync DEFAULT_DATA "N" "s" "p1" 0 = .ok (pr,
        { projects := [⟨"p1", "N", "s", 0⟩], items := [] }) ∧
      (⟨"p1", "N", 0⟩ : PublicProject) = sanitizeProject pr :=
  ⟨project_responses_hide_secret.1 ⟨"p1", "N", "s", 3⟩ "other",
   project_responses_hide_secret.2.2.1 DEFAULT_DATA "N" "s" "p1" 0
     ⟨"p1", "N", 0⟩ { projects := [⟨"p1", "N", "s", 0⟩], items := [] } rfl⟩

/-! ## C5 — not-found vs forbidden are distinct outcomes -/

/-- C5: every route under `/projects/:projectId` runs the
`requireProjectSecret` middleware first; an unknown project id is rejected
with 404, an existing project with a non-matching presented secret is
rejected with 403, and the two status codes differ. -/
theorem project_scoped_errors_distinct :
    (∀ (d : StoreData) (pid : String) (h : Option String),
      getProjectByIdSync d pid = none → requireProjectSecret d pid h = .error 404) ∧
    (∀ (d : StoreData) (pid : String) (h : Option String) (pr : Project),
      getProjectByIdSync d pid = some pr → pr.secretKey ≠ jsTrim (h.getD "") →
      requireProjectSecret d pid h = .error 403) ∧
    (404 : Nat) ≠ 403 := by
  refine ⟨?_, ?_, by decide⟩
  · intro d pid h hnone
    unfold requireProjectSecret
    rw [hnone]
  · intro d pid h pr hsome hne
    unfold requireProjectSecret
    rw [hsome]
    simp [hne]

/-- Witness for C5 on a one-project store. -/
theorem project_scoped_errors_distinct_witness :
    requireProjectSecret ⟨[⟨"p", "n", "s", 0⟩], []⟩ "q" (some "s") = .error 404 ∧
    requireProjectSecret ⟨[⟨"p", "n", "s", 0⟩], []⟩ "p" (some "wrong") = .error 403 :=
  ⟨project_scoped_errors_distinct.1 ⟨[⟨"p", "n", "s", 0⟩], []⟩ "q" (some "s") rfl,
   project_scoped_errors_distinct.2.1 ⟨[⟨"p", "n", "s", 0⟩], []⟩ "p" (some "wrong")
     ⟨"p", "n", "s", 0⟩ rfl (by decide)⟩

/-! ## C6 — the secret comparison trims the presented header first -/

/-- C6 as stated is false: with stored secret `"s"`, presenting the header
value `" s"` — not byte-for-byte equal to `"s"` — still grants access,
because `requireProjectSecret` trims the header before the equality
check. -/
theorem secret_equality_counterexample :
    requireProjectSecret ⟨[⟨"p", "n", "s", 0⟩], []⟩ "p" (some " s") =
      .ok ⟨"p", "n", "s", 0⟩ ∧ (" s" : String) ≠ "s" :=
  ⟨rfl, by decide⟩

/-- C6 amended: access is granted iff the *trimmed* presented header value
is byte-for-byte equal to the stored secret of the project resolved by the
path id; any presented header whose trimmed value differs from the stored
secret is denied with 403. -/
theorem secret_equality_amended :
    (∀ (d : StoreData) (pid : String) (header : Option String) (pr : Project),
      requireProjectSecret d pid header = .ok pr ↔
        getProjectByIdSync d pid = some pr ∧
          pr.secretKey = jsTrim (header.getD "")) ∧
    (∀ (d : StoreData) (pid : String) (header : Option String) (pr : Project),
      getProjectByIdSync d pid = some pr →
      pr.secretKey ≠ jsTrim (header.getD "") →
      requireProjectSecret d pid header = .error 403) := by
  constructor
  · intro d pid header pr
    unfold requireProjectSecret
    cases hf : getProjectByIdSync d pid with
    | none => simp
    | some pr' =>
      by_cases he : pr'.secretKey = jsTrim (header.getD "")
      · simp only [he, beq_self_eq_true, Bool.not_true, Bool.false_eq_true, if_false,
          if_neg, Except.ok.injEq]
        constructor
        · rintro rfl
          exact ⟨rfl, he⟩
        · rintro ⟨h1, _⟩
          injection h1
      · simp only [beq_iff_eq, he, Bool.not_eq_true', if_pos, Option.some.injEq]
        constructor
        · intro h
          simp [he] at h
        · rintro ⟨rfl, h2⟩
          exact absurd h2 he
  · intro d pid header pr hsome hne
    unfold requireProjectSecret
    rw [hsome]
    simp [hne]

/-- Witness for C6 amended: a trimmed-equal header is accepted. -/
theorem secret_equality_amended_witness :
    requireProjectSecret ⟨[⟨"p", "n", "s", 0⟩], []⟩ "p" (some " s") =
      .ok ⟨"p", "n", "s", 0⟩ :=
  (secret_equality_amended.1 ⟨[⟨"p", "n", "s", 0⟩], []⟩ "p" (some " s")
    ⟨"p", "n", "s", 0⟩).mpr ⟨rfl, rfl⟩

/-! ## C9 — silent branches of the drag-end handler -/

/-- C9: a drop onto the same column at the same index installs no state
and sends no request, and a drop whose source index holds no item (the
racing-deletion case) likewise aborts with no state change and no
request. -/
theorem dragEnd_noop_cases :
    (∀ (cols : ClientColumns) (src : DropSpot),
      handleDragEnd cols src (some src) = ⟨none, none⟩) ∧
    (∀ (cols : ClientColumns) (src : DropSpot) (dst : Option DropSpot),
      (clientColumn cols src.droppableId).length ≤ src.index →
      handleDragEnd cols src dst = ⟨none, none⟩) := by
  constructor
  · intro cols src
    simp [handleDragEnd]
  · intro cols src dst hlen
    cases dst with
    | none => rfl
    | some dest =>
      unfold handleDragEnd
      by_cases heq : dest.droppableId == src.droppableId && dest.index == src.index
      · simp [heq]
      · have hnone : (clientColumn cols src.droppableId)[src.index]? = none :=
          List.getElem?_eq_none hlen
        simp [heq, hnone]

/-- Witness for C9 on a one-item board. -/
theorem dragEnd_noop_cases_witness :
    handleDragEnd { backlog := [⟨"a", "p", "T", "", "backlog", 1, 0, 0⟩] }
      ⟨"backlog", 0⟩ (some ⟨"backlog", 0⟩) = ⟨none, none⟩ ∧
    handleDragEnd { backlog := [⟨"a", "p", "T", "", "backlog", 1, 0, 0⟩] }
      ⟨"backlog", 5⟩ (some ⟨"review", 0⟩) = ⟨none, none⟩ :=
  ⟨dragEnd_noop_cases.1 _ ⟨"backlog", 0⟩,
   dragEnd_noop_cases.2 _ ⟨"backlog", 5⟩ (some ⟨"review", 0⟩) (by decide)⟩

/-! ## Characterizations of the successful paths of the store operations -/

theorem createProjectSync_ok {d : StoreData} {name key newId : String} {now : Nat}
    {p : Project} {d' : StoreData}
    (h : createProjectSync d name key newId now = .ok (p, d')) :
    jsTrim name ≠ "" ∧ jsTrim key ≠ "" ∧
    (∀ q ∈ d.projects, q.secretKey ≠ jsTrim key) ∧
    p = ⟨newId, jsTrim name, jsTrim key, now⟩ ∧
    d' = { d with projects := d.projects ++ [p] } := by
  simp only [createProjectSync] at h
  split_ifs at h with h1 h2 h3
  simp only [Except.ok.injEq, Prod.mk.injEq] at h
  obtain ⟨hp, hd⟩ := h
  refine ⟨by simpa using h1, by simpa using h2, ?_, hp.symm, by rw [← hd, hp]⟩
  intro q hq hkey
  exact h3 (List.find?_isSome.mpr ⟨q, hq, by simp [hkey]⟩)

theorem createItemSync_ok {d : StoreData} {pid title desc status newId : String}
    {now : Nat} {it : Item} {d' : StoreData}
    (h : createItemSync d pid title desc status newId now = .ok (it, d')) :
    jsTrim title ≠ "" ∧ VALID_STATUSES.contains status ∧
    (∃ pr ∈ d.projects, pr.id = pid) ∧
    it = { id := newId, projectId := pid, title := jsTrim title,
           description := jsTrim desc, status := status,
           position := nextPositionForStatus d pid status,
           createdAt := now, updatedAt := now } ∧
    d' = { d with items := d.items ++ [it] } := by
  simp only [createItemSync] at h
  split_ifs at h with h1 h2 h3
  simp only [Except.ok.injEq, Prod.mk.injEq] at h
  obtain ⟨hit, hd⟩ := h
  refine ⟨by simpa using h1, by simpa using h2, ?_, hit.symm, by rw [← hd, hit]⟩
  rw [Bool.not_eq_true, Option.isNone_eq_false_iff, Option.isSome_iff_exists] at h3
  obtain ⟨pr, hpr⟩ := h3
  have := List.find?_some hpr
  exact ⟨pr, List.mem_of_find?_eq_some hpr, by simpa using this⟩

theorem updateFirstItem_ok {pred : Item → Bool} {f : Item → Except String Item} :
    ∀ {items : List Item} {u : Item} {items' : List Item},
    updateFirstItem pred f items = .ok (u, items') →
    ∃ l1 x l2, items = l1 ++ x :: l2 ∧ items' = l1 ++ u :: l2 ∧
      (∀ y ∈ l1, pred y = false) ∧ pred x = true ∧ f x = .ok u := by
  intro items
  induction items with
  | nil => intro u items' h; exact absurd h (by simp [updateFirstItem])
  | cons it rest ih =>
    intro u items' h
    unfold updateFirstItem at h
    by_cases hp : pred it
    · rw [if_pos hp] at h
      cases hf : f it with
      | error e => rw [hf] at h; exact absurd h (by simp)
      | ok it' =>
        rw [hf] at h
        simp only [Except.ok.injEq, Prod.mk.injEq] at h
        exact ⟨[], it, rest, rfl, by simp [h.2.symm, h.1], by simp, hp,
          by rw [hf, h.1]⟩
    · rw [if_neg hp] at h
      cases hr : updateFirstItem pred f rest with
      | error e => rw [hr] at h; exact absurd h (by simp)
      | ok pr =>
        rw [hr] at h
        obtain ⟨u0, rest'⟩ := pr
        simp only [Except.ok.injEq, Prod.mk.injEq] at h
        obtain ⟨l1, x, l2, he, he', hl1, hx, hfx⟩ := ih hr
        refine ⟨it :: l1, x, l2, by simp [he], by simp [← h.2, he', h.1], ?_, hx, by rw [hfx, h.1]⟩
        intro y hy
        rcases List.mem_cons.mp hy with hy | hy
        · rw [hy]; exact Bool.not_eq_true _ ▸ hp
        · exact hl1 y hy

theorem removeFirstItem_some {pred : Item → Bool} :
    ∀ {items : List Item} {r : Item} {items' : List Item},
    removeFirstItem pred items = some (r, items') →
    ∃ l1 l2, items = l1 ++ r :: l2 ∧ items' = l1 ++ l2 ∧
      (∀ y ∈ l1, pred y = false) ∧ pred r = true := by
  intro items
  induction items with
  | nil => intro r items' h; exact absurd h (by simp [removeFirstItem])
  | cons it rest ih =>
    intro r items' h
    unfold removeFirstItem at h
    by_cases hp : pred it
    · rw [if_pos hp] at h
      simp only [Option.some.injEq, Prod.mk.injEq] at h
      exact ⟨[], rest, by simp [h.1], by simp [h.2], by simp, h.1 ▸ hp⟩
    · rw [if_neg hp] at h
      cases hr : removeFirstItem pred rest with
      | none => rw [hr] at h; exact absurd h (by simp)
      | some pr =>
        rw [hr] at h
        obtain ⟨r0, rest'⟩ := pr
        simp only [Option.some.injEq, Prod.mk.injEq] at h
        obtain ⟨l1, l2, he, he', hl1, hx⟩ := ih (h.1 ▸ hr)
        refine ⟨it :: l1, l2, by simp [he], by simp [← h.2, he'], ?_, hx⟩
        intro y hy
        rcases List.mem_cons.mp hy with hy | hy
        · rw [hy]; exact Bool.not_eq_true _ ▸ hp
        · exact hl1 y hy

theorem updateItemSync_ok {d : StoreData} {pid iid : String} {upd : ItemUpdates}
    {now : Nat} {it : Item} {d' : StoreData}
    (h : updateItemSync d pid iid upd now = .ok (it, d')) :
    ∃ l1 x l2, d.items = l1 ++ x :: l2 ∧
      d' = { d with items := l1 ++ it :: l2 } ∧
      (∀ y ∈ l1, (y.id == iid && y.projectId == pid) = false) ∧
      x.id = iid ∧ x.projectId = pid ∧
      applyItemUpdates d pid x upd now = .ok it := by
  unfold updateItemSync at h
  cases hu : updateFirstItem (fun j => j.id == iid && j.projectId == pid)
      (fun j => applyItemUpdates d pid j upd now) d.items with
  | error e => rw [hu] at h; exact absurd h (by simp)
  | ok pr =>
    rw [hu] at h
    obtain ⟨u, items'⟩ := pr
    simp only [Except.ok.injEq, Prod.mk.injEq] at h
    obtain ⟨l1, x, l2, he, he', hl1, hx, hfx⟩ := updateFirstItem_ok hu
    simp only [Bool.and_eq_true, beq_iff_eq] at hx
    exact ⟨l1, x, l2, he, by rw [← h.2, he', h.1], hl1, hx.1, hx.2, by rw [hfx, h.1]⟩

theorem deleteItemSync_ok {d : StoreData} {pid iid : String} {it : Item} {d' : StoreData}
    (h : deleteItemSync d pid iid = .ok (it, d')) :
    ∃ l1 l2, d.items = l1 ++ it :: l2 ∧
      d' = { d with items := l1 ++ l2 } ∧
      (∀ y ∈ l1, (y.id == iid && y.projectId == pid) = false) ∧
      it.id = iid ∧ it.projectId = pid := by
  unfold deleteItemSync at h
  cases hu : removeFirstItem (fun j => j.id == iid && j.projectId == pid) d.items with
  | none => rw [hu] at h; exact absurd h (by simp)
  | some pr =>
    rw [hu] at h
    obtain ⟨r, items'⟩ := pr
    simp only [Except.ok.injEq, Prod.mk.injEq] at h
    obtain ⟨l1, l2, he, he', hl1, hx⟩ := removeFirstItem_some hu
    simp only [Bool.and_eq_true, beq_iff_eq] at hx
    exact ⟨l1, l2, h.1 ▸ he, by rw [← h.2, he'], hl1, h.1 ▸ hx.1, h.1 ▸ hx.2⟩

theorem reorderItemsSync_ok {d : StoreData} {pid : String} {cols : ReorderColumns}
    {now : Nat} {resp : List Item} {d' : StoreData}
    (h : reorderItemsSync d pid cols now = .ok (resp, d')) :
    (∃ pr ∈ d.projects, pr.id = pid) ∧
    d' = { d with items := applyReorder pid cols now d.items } ∧
    resp = getItemsByProjectSync d' pid := by
  simp only [reorderItemsSync] at h
  split_ifs at h with h1
  simp only [Except.ok.injEq, Prod.mk.injEq] at h
  have h1' : ∃ pr ∈ d.projects, (pr.id == pid) = true := by
    rw [← List.any_eq_true]
    simpa using h1
  obtain ⟨pr, hpr, hid⟩ := h1'
  exact ⟨⟨pr, hpr, by simpa using hid⟩, h.2.symm, by rw [← h.1, ← h.2]⟩

/-! ## C8 — secret keys stay unique -/

/-- In every reachable store the projects' secret keys are pairwise
distinct. -/
theorem reach_secretKeys_nodup {d : StoreData} (hr : Reach d) :
    (d.projects.map (fun p => p.secretKey)).Nodup := by
  induction hr with
  | empty => simp [DEFAULT_DATA]
  | createProject _ _ hok ih =>
    obtain ⟨_, _, hfresh, hp, hd'⟩ := createProjectSync_ok hok
    rw [hd']
    simp only [List.map_append, List.map_cons, List.map_nil]
    rw [List.nodup_append]
    refine ⟨ih, List.nodup_singleton _, ?_⟩
    intro a ha hb
    rw [List.mem_singleton] at hb
    obtain ⟨q, hq, hqa⟩ := List.mem_map.mp ha
    rw [hb, hp] at hqa
    exact hfresh q hq hqa
  | createItem _ _ hok ih =>
    obtain ⟨_, _, _, _, hd'⟩ := createItemSync_ok hok
    rw [hd']
    exact ih
  | updateItem _ hok ih =>
    obtain ⟨l1, x, l2, _, hd', _⟩ := updateItemSync_ok hok
    rw [hd']
    exact ih
  | deleteItem _ hok ih =>
    obtain ⟨l1, l2, _, hd', _⟩ := deleteItemSync_ok hok
    rw [hd']
    exact ih
  | deleteProject _ ih =>
    unfold deleteProjectSync
    split
    · exact ih
    · exact List.Nodup.sublist ((List.eraseIdx_sublist _ _).map _) ih
  | reorder _ hok ih =>
    obtain ⟨_, hd', _⟩ := reorderItemsSync_ok hok
    rw [hd']
    exact ih

/-- C8: re-creating a project with an already-used secret key fails with
the duplicate-key validation error and leaves the store exactly as it
was; consequently, in every reachable store the secret keys are pairwise
distinct and a lookup by secret identifies at most one project. -/
theorem duplicate_secret_key_rejected :
    (∀ (d : StoreData) (n1 k id1 : String) (t1 : Nat) (p1 : Project) (d1 : StoreData)
        (n2 id2 : String) (t2 : Nat),
      createProjectSync d n1 k id1 t1 = .ok (p1, d1) →
      jsTrim n2 ≠ "" →
      createProjectApi d1 n2 k id2 t2 =
        (.error "Secret key already exists. Choose a different one.", d1)) ∧
    (∀ d : StoreData, Reach d → (d.projects.map (fun p => p.secretKey)).Nodup) ∧
    (∀ (d : StoreData) (key : String) (pr : Project), Reach d →
      getProjectBySecretSync d key = some pr →
      ∀ pr' ∈ d.projects, pr'.secretKey = pr.secretKey → pr' = pr) := by
  refine ⟨?_, fun d hr => reach_secretKeys_nodup hr, ?_⟩
  · intro d n1 k id1 t1 p1 d1 n2 id2 t2 hok hn2
    obtain ⟨hn1, hk, hfresh, hp1, hd1⟩ := createProjectSync_ok hok
    have hmem : p1 ∈ d1.projects := by
      rw [hd1]
      exact List.mem_append_right _ (List.mem_singleton.mpr rfl)
    have hfind : (d1.projects.find? (fun p => p.secretKey == jsTrim k)).isSome = true :=
      List.find?_isSome.mpr ⟨p1, hmem, by simp [hp1]⟩
    simp [createProjectApi, createProjectSync, hn2, hk, hfind]
  · intro d key pr hr hlook pr' hmem' hkey
    have hnodup := reach_secretKeys_nodup hr
    simp only [getProjectBySecretSync] at hlook
    split_ifs at hlook with hemp
    have hmem : pr ∈ d.projects := List.mem_of_find?_eq_some hlook
    exact List.inj_on_of_nodup_map hnodup hmem' hmem hkey

/-- Witness for C8: the duplicate-creation scenario from the spec. -/
theorem duplicate_secret_key_rejected_witness :
    createProjectApi
        { projects := [⟨"p", "A", "dup", 0⟩], items := [] } "B" "dup" "q" 1 =
      (.error "Secret key already exists. Choose a different one.",
        { projects := [⟨"p", "A", "dup", 0⟩], items := [] }) ∧
    ((StoreData.mk [⟨"p", "A", "dup", 0⟩] []).projects.map
      (fun p => p.secretKey)).Nodup :=
  ⟨duplicate_secret_key_rejected.1 DEFAULT_DATA "A" "dup" "p" 0
      ⟨"p", "A", "dup", 0⟩ { projects := [⟨"p", "A", "dup", 0⟩], items := [] }
      "B" "q" 1 rfl (by decide),
   duplicate_secret_key_rejected.2.1 _
     (@Reach.createProject DEFAULT_DATA "A" "dup" "p" 0 ⟨"p", "A", "dup", 0⟩
       { projects := [⟨"p", "A", "dup", 0⟩], items := [] }
       Reach.empty (by simp [DEFAULT_DATA]) rfl)⟩

/-! ## C3 — position assignment on creation and single-item update -/

/-- A successful title update changes nothing but the title field. -/
theorem applyTitleUpdate_ok {x : Item} {t? : Option String} {x1 : Item}
    (h : applyTitleUpdate x t? = .ok x1) :
    x1.id = x.id ∧ x1.projectId = x.projectId ∧ x1.status = x.status ∧
    x1.position = x.position ∧ x1.description = x.description ∧
    x1.createdAt = x.createdAt ∧ x1.updatedAt = x.updatedAt := by
  cases t? with
  | none =>
    simp only [applyTitleUpdate, Except.ok.injEq] at h
    rw [← h]
    exact ⟨rfl, rfl, rfl, rfl, rfl, rfl, rfl⟩
  | some t =>
    simp only [applyTitleUpdate] at h
    split_ifs at h with h1
    simp only [Except.ok.injEq] at h
    rw [← h]
    exact ⟨rfl, rfl, rfl, rfl, rfl, rfl, rfl⟩

/-- The description update changes nothing but the description field. -/
theorem applyDescriptionUpdate_fields (x : Item) (d? : Option String) :
    (applyDescriptionUpdate x d?).id = x.id ∧
    (applyDescriptionUpdate x d?).projectId = x.projectId ∧
    (applyDescriptionUpdate x d?).status = x.status ∧
    (applyDescriptionUpdate x d?).position = x.position ∧
    (applyDescriptionUpdate x d?).title = x.title ∧
    (applyDescriptionUpdate x d?).createdAt = x.createdAt ∧
    (applyDescriptionUpdate x d?).updatedAt = x.updatedAt := by
  cases d? with
  | none => exact ⟨rfl, rfl, rfl, rfl, rfl, rfl, rfl⟩
  | some dd => exact ⟨rfl, rfl, rfl, rfl, rfl, rfl, rfl⟩

/-- A successful status update keeps identity fields; it keeps status and
position when no real change is requested, and re-homes the item by the
`max+1` rule when the status really changes. -/
theorem applyStatusUpdate_ok {d : StoreData} {pid : String} {orig x2 x3 : Item}
    {s? : Option String}
    (h : applyStatusUpdate d pid orig x2 s? = .ok x3) :
    x3.id = x2.id ∧ x3.projectId = x2.projectId ∧
    x3.title = x2.title ∧ x3.description = x2.description ∧
    x3.createdAt = x2.createdAt ∧ x3.updatedAt = x2.updatedAt ∧
    ((s? = none ∨ s? = some orig.status) →
      x3.status = x2.status ∧ x3.position = x2.position) ∧
    (∀ s, s? = some s → s ≠ orig.status →
      x3.status = s ∧ x3.position = nextPositionForStatus d pid s) := by
  cases s? with
  | none =>
    simp only [applyStatusUpdate, Except.ok.injEq] at h
    rw [← h]
    exact ⟨rfl, rfl, rfl, rfl, rfl, rfl, fun _ => ⟨rfl, rfl⟩,
      fun s hs _ => by cases hs⟩
  | some s =>
    simp only [applyStatusUpdate] at h
    split_ifs at h with h1 h2
    · simp only [Except.ok.injEq] at h
      rw [← h]
      refine ⟨rfl, rfl, rfl, rfl, rfl, rfl, fun _ => ⟨rfl, rfl⟩, fun s0 hs0 hne => ?_⟩
      rw [Option.some.injEq] at hs0
      rw [beq_iff_eq] at h2
      exact absurd (hs0 ▸ h2) hne
    · simp only [Except.ok.injEq] at h
      rw [← h]
      refine ⟨rfl, rfl, rfl, rfl, rfl, rfl, ?_, fun s0 hs0 _ => ?_⟩
      · intro hcase
        rcases hcase with hc | hc
        · cases hc
        · rw [Option.some.injEq] at hc
          rw [beq_iff_eq] at h2
          exact absurd hc h2
      · rw [Option.some.injEq] at hs0
        rw [← hs0]
        exact ⟨rfl, rfl⟩

/-- What a successful `applyItemUpdates` does to the tracked fields:
identity and ownership are untouched; an absent or unchanged status keeps
status and position; a changed status re-homes the item with the `max+1`
position of the destination pair. -/
theorem applyItemUpdates_ok {d : StoreData} {pid : String} {x : Item}
    {upd : ItemUpdates} {now : Nat} {it : Item}
    (h : applyItemUpdates d pid x upd now = .ok it) :
    it.id = x.id ∧ it.projectId = x.projectId ∧ it.updatedAt = now ∧
    ((upd.status = none ∨ upd.status = some x.status) →
      it.status = x.status ∧ it.position = x.position) ∧
    (∀ s, upd.status = some s → s ≠ x.status →
      it.status = s ∧ it.position = nextPositionForStatus d pid s) := by
  unfold applyItemUpdates at h
  cases h1 : applyTitleUpdate x upd.title with
  | error e => rw [h1] at h; exact absurd h (by simp)
  | ok x1 =>
    rw [h1] at h
    dsimp only [] at h
    cases h2 : applyStatusUpdate d pid x (applyDescriptionUpdate x1 upd.description)
        upd.status with
    | error e => rw [h2] at h; exact absurd h (by simp)
    | ok x3 =>
      rw [h2] at h
      simp only [Except.ok.injEq] at h
      obtain ⟨hid1, hpr1, hst1, hpos1, _, _, _⟩ := applyTitleUpdate_ok h1
      obtain ⟨hid2, hpr2, hst2, hpos2, _, _, _⟩ :=
        applyDescriptionUpdate_fields x1 upd.description
      obtain ⟨hid3, hpr3, _, _, _, _, hkeep, hmove⟩ := applyStatusUpdate_ok h2
      refine ⟨?_, ?_, by rw [← h], ?_, ?_⟩
      · rw [← h]
        show x3.id = x.id
        rw [hid3, hid2, hid1]
      · rw [← h]
        show x3.projectId = x.projectId
        rw [hpr3, hpr2, hpr1]
      · intro hcase
        obtain ⟨hs3, hp3⟩ := hkeep hcase
        constructor
        · rw [← h]
          show x3.status = x.status
          rw [hs3, hst2, hst1]
        · rw [← h]
          show x3.position = x.position
          rw [hp3, hpos2, hpos1]
      · intro s hs hne
        obtain ⟨hs3, hp3⟩ := hmove s hs hne
        exact ⟨by rw [← h]; exact hs3, by rw [← h]; exact hp3⟩

/-- C3: item creation appends with position `max+1` over the destination
pair (1 on an empty pair) and touches nothing else; a status-changing
update re-homes the item by the same `max+1` rule over the destination
pair and leaves every other item — in particular the source column —
untouched; an update without a real status change keeps status and
position. -/
theorem position_assignment_rules :
    (∀ (d : StoreData) (pid title desc status newId : String) (now : Nat)
        (it : Item) (d' : StoreData),
      createItemSync d pid title desc status newId now = .ok (it, d') →
      d' = { d with items := d.items ++ [it] } ∧
      it.projectId = pid ∧ it.status = status ∧
      (columnItems d.items pid status = [] → it.position = 1) ∧
      (columnItems d.items pid status ≠ [] →
        ∃ m ∈ (columnItems d.items pid status).map (fun j => j.position),
          (∀ y ∈ (columnItems d.items pid status).map (fun j => j.position), y ≤ m) ∧
          it.position = m + 1) ∧
      (∀ j ∈ columnItems d.items pid status, j.position < it.position)) ∧
    (∀ (d : StoreData) (pid iid : String) (upd : ItemUpdates) (now : Nat)
        (it : Item) (d' : StoreData),
      updateItemSync d pid iid upd now = .ok (it, d') →
      ∃ l1 x l2,
        d.items = l1 ++ x :: l2 ∧ d'.items = l1 ++ it :: l2 ∧
        d'.projects = d.projects ∧ x.id = iid ∧ x.projectId = pid ∧
        it.id = x.id ∧ it.projectId = x.projectId ∧
        ((upd.status = none ∨ upd.status = some x.status) →
          it.status = x.status ∧ it.position = x.position) ∧
        (∀ s, upd.status = some s → s ≠ x.status →
          it.status = s ∧
          (columnItems d.items pid s = [] → it.position = 1) ∧
          (columnItems d.items pid s ≠ [] →
            ∃ m ∈ (columnItems d.items pid s).map (fun j => j.position),
              (∀ y ∈ (columnItems d.items pid s).map (fun j => j.position), y ≤ m) ∧
              it.position = m + 1) ∧
          (∀ j ∈ columnItems d.items pid s, j.position < it.position))) := by
  constructor
  · intro d pid title desc status newId now it d' hok
    obtain ⟨_, _, _, hit, hd'⟩ := createItemSync_ok hok
    refine ⟨hd', by rw [hit], by rw [hit], ?_, ?_, ?_⟩
    · intro hemp
      rw [hit]
      exact nextPositionForStatus_of_empty hemp
    · intro hne
      obtain ⟨m, hm, hub, heq⟩ := nextPositionForStatus_of_ne_empty hne
      exact ⟨m, hm, hub, by rw [hit]; exact heq⟩
    · intro j hj
      rw [hit]
      exact lt_nextPositionForStatus j hj
  · intro d pid iid upd now it d' hok
    obtain ⟨l1, x, l2, hsplit, hd', hnone, hxid, hxpid, happ⟩ := updateItemSync_ok hok
    obtain ⟨hid, hpr, _, hkeep, hmove⟩ := applyItemUpdates_ok happ
    refine ⟨l1, x, l2, hsplit, by rw [hd'], by rw [hd'], hxid, hxpid, hid, hpr,
      hkeep, ?_⟩
    intro s hs hne
    obtain ⟨hst, hpos⟩ := hmove s hs hne
    refine ⟨hst, ?_, ?_, ?_⟩
    · intro hemp
      rw [hpos]
      exact nextPositionForStatus_of_empty hemp
    · intro hnemp
      obtain ⟨m, hm, hub, heq⟩ := nextPositionForStatus_of_ne_empty hnemp
      exact ⟨m, hm, hub, by rw [hpos]; exact heq⟩
    · intro j hj
      rw [hpos]
      exact lt_nextPositionForStatus j hj

/-- Witness for C3: creating into an empty column gives position 1, and a
status-changing update onto an empty destination column gives position 1
while the other stored item keeps its record. -/
theorem position_assignment_rules_witness :
    (createItemSync ⟨[⟨"p", "n", "k", 0⟩], []⟩ "p" "T" "" "backlog" "a" 1 =
      .ok (⟨"a", "p", "T", "", "backlog", 1, 1, 1⟩,
        ⟨[⟨"p", "n", "k", 0⟩], [⟨"a", "p", "T", "", "backlog", 1, 1, 1⟩]⟩)) ∧
    (⟨"a", "p", "T", "", "backlog", 1, 1, 1⟩ : Item).position = 1 ∧
    ∃ l1 x l2,
      ([⟨"a", "p", "T", "", "backlog", 1, 1, 1⟩,
        ⟨"b", "p", "U", "", "backlog", 2, 1, 1⟩] : List Item) = l1 ++ x :: l2 ∧
      (updateItemSync
          ⟨[⟨"p", "n", "k", 0⟩],
           [⟨"a", "p", "T", "", "backlog", 1, 1, 1⟩,
            ⟨"b", "p", "U", "", "backlog", 2, 1, 1⟩]⟩ "p" "b"
          { status := some "review" } 5).map (fun r => r.2.items) =
        .ok (l1 ++ ⟨"b", "p", "U", "", "review", 1, 1, 5⟩ :: l2) := by
  refine ⟨rfl,
    (position_assignment_rules.1 ⟨[⟨"p", "n", "k", 0⟩], []⟩ "p" "T" "" "backlog" "a" 1
      ⟨"a", "p", "T", "", "backlog", 1, 1, 1⟩
      ⟨[⟨"p", "n", "k", 0⟩], [⟨"a", "p", "T", "", "backlog", 1, 1, 1⟩]⟩ rfl).2.2.2.1 rfl, ?_⟩
  obtain ⟨l1, x, l2, hsplit, hd', _, _, _, _, _, _, _⟩ :=
    position_assignment_rules.2
      ⟨[⟨"p", "n", "k", 0⟩],
       [⟨"a", "p", "T", "", "backlog", 1, 1, 1⟩,
        ⟨"b", "p", "U", "", "backlog", 2, 1, 1⟩]⟩ "p" "b"
      { status := some "review" } 5 ⟨"b", "p", "U", "", "review", 1, 1, 5⟩
      ⟨[⟨"p", "n", "k", 0⟩],
       [⟨"a", "p", "T", "", "backlog", 1, 1, 1⟩,
        ⟨"b", "p", "U", "", "review", 1, 1, 5⟩]⟩ rfl
  exact ⟨l1, x, l2, hsplit, by rw [← hd']; rfl⟩

/-! ## Reorder write machinery -/

theorem setItemOrder_cons (iid pid s : String) (pos : Int) (now : Nat)
    (it : Item) (rest : List Item) :
    setItemOrder iid pid s pos now (it :: rest) =
      if (it.id == iid && it.projectId == pid) = true then
        { it with status := s, position := pos, updatedAt := now } :: rest
      else it :: setItemOrder iid pid s pos now rest := rfl

theorem setItemOrder_map_key (iid pid s : String) (pos : Int) (now : Nat)
    (items : List Item) :
    (setItemOrder iid pid s pos now items).map (fun it => (it.id, it.projectId)) =
      items.map (fun it => (it.id, it.projectId)) := by
  induction items with
  | nil => rfl
  | cons it rest ih =>
    rw [setItemOrder_cons]
    by_cases hm : (it.id == iid && it.projectId == pid) = true
    · rw [if_pos hm]
      simp
    · rw [if_neg hm]
      simp only [List.map_cons]
      rw [ih]

theorem setItemOrder_map_id (iid pid s : String) (pos : Int) (now : Nat)
    (items : List Item) :
    (setItemOrder iid pid s pos now items).map (fun it => it.id) =
      items.map (fun it => it.id) := by
  induction items with
  | nil => rfl
  | cons it rest ih =>
    rw [setItemOrder_cons]
    by_cases hm : (it.id == iid && it.projectId == pid) = true
    · rw [if_pos hm]
      simp
    · rw [if_neg hm]
      simp only [List.map_cons]
      rw [ih]

/-- A write whose id/project pair matches no item is a no-op. -/
theorem setItemOrder_no_match {iid pid : String} {items : List Item}
    (h : ∀ it ∈ items, ¬(it.id = iid ∧ it.projectId = pid)) (s : String)
    (pos : Int) (now : Nat) :
    setItemOrder iid pid s pos now items = items := by
  induction items with
  | nil => rfl
  | cons it rest ih =>
    rw [setItemOrder_cons]
    have hm : ¬(it.id == iid && it.projectId == pid) = true := by
      simp only [Bool.and_eq_true, beq_iff_eq]
      exact h it (List.mem_cons_self _ _)
    rw [if_neg hm]
    rw [ih (fun j hj => h j (List.mem_cons_of_mem _ hj))]

/-- Two consecutive writes to the same id/project pair collapse to the
second write: the second pass overwrites every field the first set. -/
theorem setItemOrder_absorb (iid pid s1 s2 : String) (p1 p2 : Int) (n1 n2 : Nat)
    (items : List Item) :
    setItemOrder iid pid s2 p2 n2 (setItemOrder iid pid s1 p1 n1 items) =
      setItemOrder iid pid s2 p2 n2 items := by
  induction items with
  | nil => rfl
  | cons it rest ih =>
    by_cases hm : (it.id == iid && it.projectId == pid) = true
    · rw [setItemOrder_cons, if_pos hm, setItemOrder_cons, if_pos hm,
        setItemOrder_cons, if_pos (by simpa using hm)]
    · rw [setItemOrder_cons, if_neg hm, setItemOrder_cons, if_neg hm,
        setItemOrder_cons, if_neg hm, ih]

/-- Writes to different id/project pairs commute. -/
theorem setItemOrder_comm {iid1 pid1 iid2 pid2 : String}
    (hne : iid1 ≠ iid2 ∨ pid1 ≠ pid2) (s1 s2 : String) (p1 p2 : Int) (n1 n2 : Nat)
    (items : List Item) :
    setItemOrder iid2 pid2 s2 p2 n2 (setItemOrder iid1 pid1 s1 p1 n1 items) =
      setItemOrder iid1 pid1 s1 p1 n1 (setItemOrder iid2 pid2 s2 p2 n2 items) := by
  induction items with
  | nil => rfl
  | cons it rest ih =>
    by_cases h1 : (it.id == iid1 && it.projectId == pid1) = true
    · have h2 : ¬(it.id == iid2 && it.projectId == pid2) = true := by
        simp only [Bool.and_eq_true, beq_iff_eq] at h1 ⊢
        rcases hne with hne | hne
        · exact fun hc => hne (h1.1 ▸ hc.1 ▸ rfl)
        · exact fun hc => hne (h1.2 ▸ hc.2 ▸ rfl)
      rw [setItemOrder_cons, if_pos h1, setItemOrder_cons, if_neg (by simpa using h2),
        setItemOrder_cons, if_neg h2, setItemOrder_cons, if_pos h1]
    · by_cases h2 : (it.id == iid2 && it.projectId == pid2) = true
      · rw [setItemOrder_cons, if_neg h1, setItemOrder_cons, if_pos h2,
          setItemOrder_cons, if_pos h2, setItemOrder_cons, if_neg (by simpa using h1)]
      · rw [setItemOrder_cons, if_neg h1, setItemOrder_cons, if_neg h2,
          setItemOrder_cons, if_neg h2, setItemOrder_cons, if_neg h1, ih]

/-- One write of the reorder pass, as data: which item id is set to which
status and position. -/
structure OrderWrite where
  itemId : String
  status : String
  pos : Int
deriving Repr, DecidableEq

/-- Perform one reorder write. -/
def applyWrite (pid : String) (now : Nat) (items : List Item) (w : OrderWrite) :
    List Item :=
  setItemOrder w.itemId pid w.status w.pos now items

/-- Perform a sequence of reorder writes, first to last. -/
def applyWrites (pid : String) (now : Nat) (ws : List OrderWrite)
    (items : List Item) : List Item :=
  ws.foldl (applyWrite pid now) items

/-- The writes generated by one column of the payload, starting at a given
running index. -/
def columnWrites (status : String) : List String → Int → List OrderWrite
  | [], _ => []
  | iid :: rest, index => ⟨iid, status, index + 1⟩ :: columnWrites status rest (index + 1)

/-- The full write list of a reorder payload, in execution order. -/
def reorderWrites (columns : ReorderColumns) : List OrderWrite :=
  (VALID_STATUSES.map (fun s => columnWrites s (columnIds columns s) 0)).join

theorem applyWrites_append (pid : String) (now : Nat) (ws1 ws2 : List OrderWrite)
    (items : List Item) :
    applyWrites pid now (ws1 ++ ws2) items =
      applyWrites pid now ws2 (applyWrites pid now ws1 items) := by
  simp [applyWrites]

theorem applyColumnOrder_eq_writes (pid s : String) (now : Nat) :
    ∀ (ids : List String) (index : Int) (items : List Item),
      applyColumnOrder pid s now ids index items =
        applyWrites pid now (columnWrites s ids index) items := by
  intro ids
  induction ids with
  | nil => intro index items; rfl
  | cons iid rest ih =>
    intro index items
    rw [show applyColumnOrder pid s now (iid :: rest) index items =
        applyColumnOrder pid s now rest (index + 1)
          (setItemOrder iid pid s (index + 1) now items) from rfl]
    rw [ih]
    rfl

theorem applyReorder_eq_writes (pid : String) (cols : ReorderColumns) (now : Nat)
    (items : List Item) :
    applyReorder pid cols now items =
      applyWrites pid now (reorderWrites cols) items := by
  have key : ∀ (L : List String) (items0 : List Item),
      L.foldl (fun acc status =>
          applyColumnOrder pid status now (columnIds cols status) 0 acc) items0 =
        applyWrites pid now
          ((L.map (fun s => columnWrites s (columnIds cols s) 0)).join) items0 := by
    intro L
    induction L with
    | nil => intro items0; rfl
    | cons s0 rest ih =>
      intro items0
      simp only [List.foldl_cons, List.map_cons]
      rw [show ((columnWrites s0 (columnIds cols s0) 0) ::
            rest.map (fun s => columnWrites s (columnIds cols s) 0)).join =
          columnWrites s0 (columnIds cols s0) 0 ++
            (rest.map (fun s => columnWrites s (columnIds cols s) 0)).join from rfl]
      rw [applyWrites_append, ih, applyColumnOrder_eq_writes]
  exact key VALID_STATUSES items

theorem applyWrites_absorb_write {pid : String} {n1 n2 : Nat} {w : OrderWrite}
    {ws : List OrderWrite} (hmem : w.itemId ∈ ws.map (fun v => v.itemId)) :
    ∀ items : List Item,
      applyWrites pid n2 ws (applyWrite pid n1 items w) =
        applyWrites pid n2 ws items := by
  induction ws with
  | nil => exact absurd hmem (by simp)
  | cons w' rest ih =>
    intro items
    by_cases hw : w'.itemId = w.itemId
    · show applyWrites pid n2 rest (applyWrite pid n2 (applyWrite pid n1 items w) w') =
        applyWrites pid n2 rest (applyWrite pid n2 items w')
      rw [show applyWrite pid n2 (applyWrite pid n1 items w) w' =
          applyWrite pid n2 items w' from by
        unfold applyWrite
        rw [hw]
        exact setItemOrder_absorb w.itemId pid w.status w'.status w.pos w'.pos n1 n2 items]
    · have hmem' : w.itemId ∈ rest.map (fun v => v.itemId) := by
        rcases List.mem_map.mp hmem with ⟨v, hv, hveq⟩
        rcases List.mem_cons.mp hv with hv | hv
        · exact absurd (hv ▸ hveq) hw
        · exact List.mem_map.mpr ⟨v, hv, hveq⟩
      show applyWrites pid n2 rest (applyWrite pid n2 (applyWrite pid n1 items w) w') =
        applyWrites pid n2 rest (applyWrite pid n2 items w')
      rw [show applyWrite pid n2 (applyWrite pid n1 items w) w' =
          applyWrite pid n1 (applyWrite pid n2 items w') w from
        setItemOrder_comm (Or.inl (fun hc => hw hc.symm)) _ _ _ _ _ _ items]
      rw [ih hmem' (applyWrite pid n2 items w')]

theorem applyWrites_absorb {pid : String} {n1 n2 : Nat} {ws1 ws2 : List OrderWrite}
    (hsub : ∀ w ∈ ws1, w.itemId ∈ ws2.map (fun v => v.itemId)) :
    ∀ items : List Item,
      applyWrites pid n2 ws2 (applyWrites pid n1 ws1 items) =
        applyWrites pid n2 ws2 items := by
  induction ws1 with
  | nil => intro items; rfl
  | cons w rest ih =>
    intro items
    show applyWrites pid n2 ws2 (applyWrites pid n1 rest (applyWrite pid n1 items w)) =
      applyWrites pid n2 ws2 items
    rw [ih (fun v hv => hsub v (List.mem_cons_of_mem _ hv)) (applyWrite pid n1 items w)]
    exact applyWrites_absorb_write (hsub w (List.mem_cons_self _ _)) items

/-- The write pass of a reorder payload is idempotent on the item list
(up to the update timestamps, which the second pass overwrites). -/
theorem applyReorder_idem (pid : String) (cols : ReorderColumns) (n1 n2 : Nat)
    (items : List Item) :
    applyReorder pid cols n2 (applyReorder pid cols n1 items) =
      applyReorder pid cols n2 items := by
  rw [applyReorder_eq_writes, applyReorder_eq_writes, applyReorder_eq_writes]
  exact applyWrites_absorb (fun w hw => List.mem_map.mpr ⟨w, hw, rfl⟩) items

/-! ## C4 — bulk reorder is idempotent on the board grouping -/

/-- C4: after a successful reorder, re-submitting the identical payload
produces exactly the same result — the same grouped response and the same
stored state — as a single submission of that payload (performed at the
time of the re-submission, so that the volatile `updatedAt` stamps agree).
In particular every column lists the same items with the same statuses,
positions and order both times. -/
theorem reorder_idempotent :
    ∀ (d : StoreData) (pid : String) (cols : ReorderColumns) (t1 t2 : Nat)
      (resp1 : List Item) (d1 : StoreData),
      reorderItemsSync d pid cols t1 = .ok (resp1, d1) →
      reorderItemsSync d1 pid cols t2 = reorderItemsSync d pid cols t2 ∧
      (∀ resp2 d2 resp2' d2',
        reorderItemsSync d1 pid cols t2 = .ok (resp2, d2) →
        reorderItemsSync d pid cols t2 = .ok (resp2', d2') →
        resp2 = resp2' ∧ d2 = d2' ∧
        groupItemsByStatus resp2 = groupItemsByStatus resp2') := by
  intro d pid cols t1 t2 resp1 d1 hok
  obtain ⟨_, hd1, _⟩ := reorderItemsSync_ok hok
  have hpr : d1.projects = d.projects := by rw [hd1]
  have hit : d1.items = applyReorder pid cols t1 d.items := by rw [hd1]
  have hmain : reorderItemsSync d1 pid cols t2 = reorderItemsSync d pid cols t2 := by
    unfold reorderItemsSync
    rw [hpr, hit, applyReorder_idem]
  refine ⟨hmain, ?_⟩
  intro resp2 d2 resp2' d2' h2 h2'
  rw [hmain, h2'] at h2
  simp only [Except.ok.injEq, Prod.mk.injEq] at h2
  exact ⟨h2.1.symm, h2.2.symm, by rw [h2.1]⟩

/-- Witness for C4 on a two-item board. -/
theorem reorder_idempotent_witness :
    reorderItemsSync
        ⟨[⟨"p", "n", "k", 0⟩],
         [⟨"a", "p", "A", "", "backlog", 1, 0, 0⟩,
          ⟨"b", "p", "B", "", "backlog", 2, 0, 0⟩]⟩
        "p" { backlog := ["b", "a"] } 7 =
      reorderItemsSync
        ⟨[⟨"p", "n", "k", 0⟩],
         [⟨"a", "p", "A", "", "backlog", 1, 0, 0⟩,
          ⟨"b", "p", "B", "", "backlog", 2, 0, 0⟩]⟩
        "p" { backlog := ["b", "a"] } 7 ∧
    reorderItemsSync
        ⟨[⟨"p", "n", "k", 0⟩],
         [⟨"a", "p", "A", "", "backlog", 2, 0, 3⟩,
          ⟨"b", "p", "B", "", "backlog", 1, 0, 3⟩]⟩
        "p" { backlog := ["b", "a"] } 7 =
      reorderItemsSync
        ⟨[⟨"p", "n", "k", 0⟩],
         [⟨"a", "p", "A", "", "backlog", 1, 0, 0⟩,
          ⟨"b", "p", "B", "", "backlog", 2, 0, 0⟩]⟩
        "p" { backlog := ["b", "a"] } 7 :=
  ⟨rfl,
   (reorder_idempotent
      ⟨[⟨"p", "n", "k", 0⟩],
       [⟨"a", "p", "A", "", "backlog", 1, 0, 0⟩,
        ⟨"b", "p", "B", "", "backlog", 2, 0, 0⟩]⟩
      "p" { backlog := ["b", "a"] } 3 7
      [⟨"b", "p", "B", "", "backlog", 1, 0, 3⟩,
       ⟨"a", "p", "A", "", "backlog", 2, 0, 3⟩]
      ⟨[⟨"p", "n", "k", 0⟩],
       [⟨"a", "p", "A", "", "backlog", 2, 0, 3⟩,
        ⟨"b", "p", "B", "", "backlog", 1, 0, 3⟩]⟩ (by rfl)).1⟩

/-! ## C10 — unknown identifiers are skipped but consume their index -/

theorem find?_cons_pos {p : Item → Bool} {it : Item} {rest : List Item}
    (h : p it = true) : (it :: rest).find? p = some it := by
  simp [List.find?_cons, h]

theorem find?_cons_neg {p : Item → Bool} {it : Item} {rest : List Item}
    (h : ¬p it = true) : (it :: rest).find? p = rest.find? p := by
  simp only [List.find?_cons]
  rw [Bool.not_eq_true] at h
  rw [h]

theorem columnWrites_append (s : String) (l1 l2 : List String) (index : Int) :
    columnWrites s (l1 ++ l2) index =
      columnWrites s l1 index ++ columnWrites s l2 (index + l1.length) := by
  induction l1 generalizing index with
  | nil => simp [columnWrites]
  | cons iid rest ih =>
    rw [List.cons_append]
    rw [show columnWrites s (iid :: (rest ++ l2)) index =
        ⟨iid, s, index + 1⟩ :: columnWrites s (rest ++ l2) (index + 1) from rfl]
    rw [show columnWrites s (iid :: rest) index =
        ⟨iid, s, index + 1⟩ :: columnWrites s rest (index + 1) from rfl]
    rw [List.cons_append, ih (index + 1), List.length_cons]
    have harg : index + 1 + (rest.length : Int) = index + ((rest.length + 1 : Nat) : Int) := by
      push_cast
      ring
    rw [harg]

/-- After a write targeting an id/project pair that is present, the first
matching item carries exactly the written status and position. -/
theorem setItemOrder_find? {iid pid : String} {items : List Item} {x : Item}
    (hf : items.find? (fun it => it.id == iid && it.projectId == pid) = some x)
    (s : String) (pos : Int) (now : Nat) :
    (setItemOrder iid pid s pos now items).find?
        (fun it => it.id == iid && it.projectId == pid) =
      some { x with status := s, position := pos, updatedAt := now } := by
  induction items with
  | nil => exact absurd hf (by simp)
  | cons it rest ih =>
    by_cases hm : (it.id == iid && it.projectId == pid) = true
    · rw [find?_cons_pos hm] at hf
      rw [Option.some.injEq] at hf
      rw [setItemOrder_cons, if_pos hm]
      rw [find?_cons_pos (by simpa using hm)]
      rw [hf]
    · rw [find?_cons_neg hm] at hf
      rw [setItemOrder_cons, if_neg hm]
      rw [find?_cons_neg hm]
      exact ih hf

/-- Processing one more index of a column is one more write, at position
`k + 1`. -/
theorem applyColumnOrder_take_succ {pid s : String} {now : Nat} {ids : List String}
    {k : Nat} {iid : String} (hk : ids.get? k = some iid) (items : List Item) :
    applyColumnOrder pid s now (ids.take (k + 1)) 0 items =
      setItemOrder iid pid s ((k : Int) + 1) now
        (applyColumnOrder pid s now (ids.take k) 0 items) := by
  have hk' : ids[k]? = some iid := by
    rw [← List.get?_eq_getElem?]
    exact hk
  have htake : ids.take (k + 1) = ids.take k ++ [iid] := by
    rw [List.take_succ, hk']
    rfl
  have hlen : (ids.take k).length = k :=
    List.length_take_of_le (by
      by_contra hlt
      rw [not_le] at hlt
      exact absurd hk' (by rw [List.getElem?_eq_none (le_of_lt hlt)]; simp))
  rw [htake]
  rw [applyColumnOrder_eq_writes pid s now (ids.take k ++ [iid]) 0 items]
  rw [columnWrites_append, applyWrites_append, hlen]
  rw [applyColumnOrder_eq_writes pid s now (ids.take k) 0 items]
  rw [show (0 : Int) + (k : Int) = (k : Int) from by ring]
  rfl

/-- C10: a reorder request never fails because of unknown identifiers —
the operation succeeds whenever the project exists; a write whose
identifier matches no item of the project changes nothing; and a matched
identifier at sequence index `k` receives position `k + 1` — the write
performed at index `k` stores `k + 1` no matter how many earlier indices
were skipped — which can leave position values unoccupied, as the final
concrete board with sole position 2 shows. -/
theorem reorder_skips_unknown_ids :
    (∀ (d : StoreData) (pid : String) (cols : ReorderColumns) (now : Nat),
      (∃ pr ∈ d.projects, pr.id = pid) →
      ∃ resp d', reorderItemsSync d pid cols now = .ok (resp, d')) ∧
    (∀ (items : List Item) (iid pid s : String) (pos : Int) (now : Nat),
      (∀ it ∈ items, ¬(it.id = iid ∧ it.projectId = pid)) →
      setItemOrder iid pid s pos now items = items) ∧
    (∀ (pid s : String) (now : Nat) (ids : List String) (k : Nat) (iid : String)
        (items : List Item) (x : Item),
      ids.get? k = some iid →
      (applyColumnOrder pid s now (ids.take k) 0 items).find?
          (fun it => it.id == iid && it.projectId == pid) = some x →
      (applyColumnOrder pid s now (ids.take (k + 1)) 0 items).find?
          (fun it => it.id == iid && it.projectId == pid) =
        some { x with status := s, position := (k : Int) + 1, updatedAt := now }) ∧
    (reorderItemsSync ⟨[⟨"p", "n", "k", 0⟩], [⟨"a", "p", "A", "", "backlog", 1, 0, 0⟩]⟩
        "p" { backlog := ["ghost", "a"] } 2 =
      .ok ([⟨"a", "p", "A", "", "backlog", 2, 0, 2⟩],
        ⟨[⟨"p", "n", "k", 0⟩], [⟨"a", "p", "A", "", "backlog", 2, 0, 2⟩]⟩) ∧
      ¬(1 : Int) ∈ ([⟨"a", "p", "A", "", "backlog", 2, 0, 2⟩] : List Item).map
          (fun it => it.position)) := by
  refine ⟨?_, ?_, ?_, by rfl, by decide⟩
  · intro d pid cols now hex
    obtain ⟨pr, hpr, hid⟩ := hex
    unfold reorderItemsSync
    rw [if_neg (by
      simp only [Bool.not_eq_true', Bool.not_eq_false]
      exact List.any_eq_true.mpr ⟨pr, hpr, by simpa using hid⟩)]
    exact ⟨_, _, rfl⟩
  · intro items iid pid s pos now h
    exact setItemOrder_no_match h s pos now
  · intro pid s now ids k iid items x hk hfind
    rw [applyColumnOrder_take_succ hk]
    exact setItemOrder_find? hfind s _ now

/-- Witness for C10: on the one-item board, processing `["ghost", "a"]`
finds `"a"` at index 1 and stamps position 2. -/
theorem reorder_skips_unknown_ids_witness :
    ∃ resp d',
      reorderItemsSync ⟨[⟨"p", "n", "k", 0⟩], [⟨"a", "p", "A", "", "backlog", 1, 0, 0⟩]⟩
          "p" { backlog := ["ghost", "a"] } 2 = .ok (resp, d') ∧
    (applyColumnOrder "p" "backlog" 2 (["ghost", "a"].take 2) 0
        [⟨"a", "p", "A", "", "backlog", 1, 0, 0⟩]).find?
        (fun it => it.id == "a" && it.projectId == "p") =
      some ⟨"a", "p", "A", "", "backlog", (1 : Int) + 1, 0, 2⟩ := by
  obtain ⟨resp, d', hok⟩ := reorder_skips_unknown_ids.1
    ⟨[⟨"p", "n", "k", 0⟩], [⟨"a", "p", "A", "", "backlog", 1, 0, 0⟩]⟩
    "p" { backlog := ["ghost", "a"] } 2 ⟨⟨"p", "n", "k", 0⟩, by simp, rfl⟩
  exact ⟨resp, d', hok,
    reorder_skips_unknown_ids.2.2.1 "p" "backlog" 2 ["ghost", "a"] 1 "a"
      [⟨"a", "p", "A", "", "backlog", 1, 0, 0⟩]
      ⟨"a", "p", "A", "", "backlog", 1, 0, 0⟩ rfl (by rfl)⟩

/-! ## Pointwise characterization of the reorder pass -/

/-- Pointwise effect of one reorder write on one item. -/
def applyWriteItem (pid : String) (now : Nat) (it : Item) (w : OrderWrite) : Item :=
  if it.id == w.itemId && it.projectId == pid then
    { it with status := w.status, position := w.pos, updatedAt := now }
  else it

/-- The last write of a list that targets a given item id, if any. -/
def lastWriteFor : List OrderWrite → String → Option OrderWrite
  | [], _ => none
  | w :: rest, iid =>
    match lastWriteFor rest iid with
    | some w' => some w'
    | none => if w.itemId == iid then some w else none

theorem applyWriteItem_id (pid : String) (now : Nat) (it : Item) (w : OrderWrite) :
    (applyWriteItem pid now it w).id = it.id := by
  unfold applyWriteItem
  split <;> rfl

theorem applyWriteItem_projectId (pid : String) (now : Nat) (it : Item) (w : OrderWrite) :
    (applyWriteItem pid now it w).projectId = it.projectId := by
  unfold applyWriteItem
  split <;> rfl

/-- With globally distinct item ids, a reorder write acts pointwise. -/
theorem setItemOrder_eq_map {items : List Item}
    (hnd : (items.map (fun it => it.id)).Nodup) (iid pid s : String) (pos : Int)
    (now : Nat) :
    setItemOrder iid pid s pos now items =
      items.map (fun it => applyWriteItem pid now it ⟨iid, s, pos⟩) := by
  induction items with
  | nil => rfl
  | cons it rest ih =>
    simp only [List.map_cons, List.nodup_cons] at hnd
    rw [setItemOrder_cons, List.map_cons]
    by_cases hm : (it.id == iid && it.projectId == pid) = true
    · rw [if_pos hm]
      have hhead : applyWriteItem pid now it ⟨iid, s, pos⟩ =
          { it with status := s, position := pos, updatedAt := now } := by
        unfold applyWriteItem
        rw [if_pos hm]
      rw [hhead]
      have htail : rest.map (fun j => applyWriteItem pid now j ⟨iid, s, pos⟩) =
          rest.map (fun j => j) := by
        refine List.map_congr_left (fun j hj => ?_)
        unfold applyWriteItem
        rw [if_neg ?_]
        simp only [Bool.and_eq_true, beq_iff_eq]
        rintro ⟨hjid, -⟩
        simp only [Bool.and_eq_true, beq_iff_eq] at hm
        refine hnd.1 ?_
        rw [hm.1, ← hjid]
        exact List.mem_map.mpr ⟨j, hj, rfl⟩
      rw [htail, List.map_id']
    · rw [if_neg hm]
      have hhead : applyWriteItem pid now it ⟨iid, s, pos⟩ = it := by
        unfold applyWriteItem
        rw [if_neg hm]
      rw [hhead, ih hnd.2]

/-- With globally distinct item ids, the whole write pass acts pointwise:
each item folds the write list on its own. -/
theorem applyWrites_eq_map {items : List Item}
    (hnd : (items.map (fun it => it.id)).Nodup) (pid : String) (now : Nat)
    (ws : List OrderWrite) :
    applyWrites pid now ws items =
      items.map (fun it => ws.foldl (applyWriteItem pid now) it) := by
  induction ws generalizing items with
  | nil => simp [applyWrites]
  | cons w rest ih =>
    show applyWrites pid now rest (applyWrite pid now items w) = _
    rw [show applyWrite pid now items w =
        items.map (fun it => applyWriteItem pid now it w) from
      setItemOrder_eq_map hnd w.itemId pid w.status w.pos now]
    rw [ih (by
      rw [List.map_map]
      rw [show ((fun it => it.id) ∘ fun it => applyWriteItem pid now it w) =
          (fun it => it.id) from funext (fun it => applyWriteItem_id pid now it w)]
      exact hnd)]
    rw [List.map_map]
    rfl

/-- Overwrite the volatile fields of an item with one write. -/
def overwriteItem (it : Item) (w : OrderWrite) (now : Nat) : Item :=
  { it with status := w.status, position := w.pos, updatedAt := now }

/-- The net effect of a write list on one item: its last matching write,
applied when the item belongs to the project. -/
def lastWriteResult (pid : String) (now : Nat) (ws : List OrderWrite) (it : Item) :
    Item :=
  match lastWriteFor ws it.id with
  | none => it
  | some w => if it.projectId == pid then overwriteItem it w now else it

theorem lastWriteFor_cons (w : OrderWrite) (rest : List OrderWrite) (iid : String) :
    lastWriteFor (w :: rest) iid =
      match lastWriteFor rest iid with
      | some w' => some w'
      | none => if w.itemId == iid then some w else none := rfl

theorem foldl_applyWriteItem (pid : String) (now : Nat) :
    ∀ (ws : List OrderWrite) (it : Item),
      ws.foldl (applyWriteItem pid now) it = lastWriteResult pid now ws it := by
  intro ws
  induction ws with
  | nil => intro it; rfl
  | cons w rest ih =>
    intro it
    rw [List.foldl_cons]
    by_cases hid : it.id = w.itemId
    · by_cases hpid : it.projectId = pid
      · have hw : applyWriteItem pid now it w = overwriteItem it w now := by
          unfold applyWriteItem overwriteItem
          rw [if_pos (by simp [hid, hpid])]
        have hido : (overwriteItem it w now).id = it.id := rfl
        have hpro : (overwriteItem it w now).projectId = it.projectId := rfl
        have hb : (it.projectId == pid) = true := by simpa using hpid
        rw [hw, ih (overwriteItem it w now)]
        cases hl : lastWriteFor rest it.id with
        | some w' =>
          have hlw : lastWriteFor (w :: rest) it.id = some w' := by
            rw [lastWriteFor_cons, hl]
          simp only [lastWriteResult, hido, hpro, hl, hlw]
          rw [if_pos hb, if_pos hb]
          rfl
        | none =>
          have hlw : lastWriteFor (w :: rest) it.id = some w := by
            rw [lastWriteFor_cons, hl]
            show (if (w.itemId == it.id) = true then some w else none) = some w
            rw [if_pos (by simpa using hid.symm)]
          simp only [lastWriteResult, hido, hpro, hl, hlw]
          rw [if_pos hb]
      · have hw : applyWriteItem pid now it w = it := by
          unfold applyWriteItem
          rw [if_neg (by simp [hpid])]
        have hnp : ¬(it.projectId == pid) = true := by simpa using hpid
        rw [hw, ih it]
        cases hl : lastWriteFor rest it.id with
        | some w' =>
          have hlw : lastWriteFor (w :: rest) it.id = some w' := by
            rw [lastWriteFor_cons, hl]
          simp only [lastWriteResult, hl, hlw]
        | none =>
          by_cases hwi : (w.itemId == it.id) = true
          · have hlw : lastWriteFor (w :: rest) it.id = some w := by
              rw [lastWriteFor_cons, hl]
              show (if (w.itemId == it.id) = true then some w else none) = some w
              rw [if_pos hwi]
            simp only [lastWriteResult, hl, hlw]
            rw [if_neg hnp]
          · have hlw : lastWriteFor (w :: rest) it.id = none := by
              rw [lastWriteFor_cons, hl]
              show (if (w.itemId == it.id) = true then some w else none) = none
              rw [if_neg hwi]
            simp only [lastWriteResult, hl, hlw]
    · have hw : applyWriteItem pid now it w = it := by
        unfold applyWriteItem
        rw [if_neg (by simp [hid])]
      rw [hw, ih it]
      have hlw : lastWriteFor (w :: rest) it.id = lastWriteFor rest it.id := by
        rw [lastWriteFor_cons]
        cases hl : lastWriteFor rest it.id with
        | some w' => rfl
        | none =>
          show (if (w.itemId == it.id) = true then some w else none) = none
          rw [if_neg (by simpa using fun hc => hid hc.symm)]
      simp only [lastWriteResult, hlw]

/-- The full pointwise characterization of the reorder pass for stores
with distinct item ids: each item's final state is its last write, if it
has one and belongs to the project, and its old state otherwise. -/
theorem applyReorder_eq_map {items : List Item}
    (hnd : (items.map (fun it => it.id)).Nodup) (pid : String)
    (cols : ReorderColumns) (now : Nat) :
    applyReorder pid cols now items =
      items.map (lastWriteResult pid now (reorderWrites cols)) := by
  rw [applyReorder_eq_writes, applyWrites_eq_map hnd]
  exact List.map_congr_left (fun it _ => foldl_applyWriteItem pid now _ it)

/-! ## Locating the last write of a payload -/

/-- All identifiers supplied by a reorder payload, in processing order. -/
def allPayloadIds (columns : ReorderColumns) : List String :=
  (VALID_STATUSES.map (fun s => columnIds columns s)).join

theorem columnWrites_map_itemId (s : String) :
    ∀ (ids : List String) (index : Int),
      (columnWrites s ids index).map (fun w => w.itemId) = ids := by
  intro ids
  induction ids with
  | nil => intro index; rfl
  | cons iid rest ih =>
    intro index
    show iid :: (columnWrites s rest (index + 1)).map (fun w => w.itemId) = iid :: rest
    rw [ih]

theorem lastWriteFor_eq_none {ws : List OrderWrite} {iid : String}
    (h : ∀ w ∈ ws, w.itemId ≠ iid) : lastWriteFor ws iid = none := by
  induction ws with
  | nil => rfl
  | cons w rest ih =>
    rw [lastWriteFor_cons, ih (fun v hv => h v (List.mem_cons_of_mem _ hv))]
    show (if (w.itemId == iid) = true then some w else none) = none
    rw [if_neg (by simpa using h w (List.mem_cons_self _ _))]

theorem lastWriteFor_append (ws1 ws2 : List OrderWrite) (iid : String) :
    lastWriteFor (ws1 ++ ws2) iid =
      match lastWriteFor ws2 iid with
      | some w => some w
      | none => lastWriteFor ws1 iid := by
  induction ws1 with
  | nil =>
    show lastWriteFor ws2 iid = _
    cases lastWriteFor ws2 iid <;> rfl
  | cons w rest ih =>
    rw [List.cons_append, lastWriteFor_cons, ih, lastWriteFor_cons]
    cases lastWriteFor ws2 iid with
    | some w2 => rfl
    | none => rfl

/-- The last write of one column for an identifier occurring at index `k`
and never after: the write of index `k`. -/
theorem lastWriteFor_columnWrites {s iid : String} :
    ∀ (ids : List String) (k : Nat) (index : Int),
      ids.get? k = some iid → (∀ j, k < j → ids.get? j ≠ some iid) →
      lastWriteFor (columnWrites s ids index) iid =
        some ⟨iid, s, index + (k : Int) + 1⟩ := by
  intro ids
  induction ids with
  | nil => intro k index hk _; exact absurd hk (by simp)
  | cons a rest ih =>
    intro k index hk hafter
    rw [show columnWrites s (a :: rest) index =
        ⟨a, s, index + 1⟩ :: columnWrites s rest (index + 1) from rfl]
    rw [lastWriteFor_cons]
    cases k with
    | zero =>
      have ha : a = iid := by simpa using hk
      have hnone : lastWriteFor (columnWrites s rest (index + 1)) iid = none := by
        refine lastWriteFor_eq_none (fun w hw => ?_)
        have hmem : w.itemId ∈ rest := by
          have := columnWrites_map_itemId s rest (index + 1)
          rw [← this]
          exact List.mem_map.mpr ⟨w, hw, rfl⟩
        intro hcid
        obtain ⟨j, hj⟩ := List.mem_iff_get?.mp hmem
        exact hafter (j + 1) (Nat.succ_pos j)
          (by rw [show (a :: rest).get? (j + 1) = rest.get? j from rfl, hj, hcid])
      rw [hnone]
      show (if (a == iid) = true then some (⟨a, s, index + 1⟩ : OrderWrite) else none) = _
      rw [if_pos (by simpa using ha), ha]
      congr 2
      simp
    | succ k0 =>
      have hk' : rest.get? k0 = some iid := hk
      have hafter' : ∀ j, k0 < j → rest.get? j ≠ some iid := by
        intro j hj
        exact fun hc =>
          hafter (j + 1) (Nat.succ_lt_succ hj)
            (by rw [show (a :: rest).get? (j + 1) = rest.get? j from rfl, hc])
      rw [ih k0 (index + 1) hk' hafter']
      push_cast
      ring_nf

theorem mem_columnWrites_itemId {s : String} {ids : List String} {index : Int}
    {w : OrderWrite} (hw : w ∈ columnWrites s ids index) : w.itemId ∈ ids := by
  have := columnWrites_map_itemId s ids index
  rw [← this]
  exact List.mem_map.mpr ⟨w, hw, rfl⟩

/-- Locating the last write of a whole payload with pairwise-distinct
supplied identifiers: the unique occurrence wins. -/
theorem lastWriteFor_payload {cols : ReorderColumns} {s iid : String} {k : Nat}
    (hs : s ∈ VALID_STATUSES) (hk : (columnIds cols s).get? k = some iid)
    (hnd : (allPayloadIds cols).Nodup) :
    lastWriteFor (reorderWrites cols) iid = some ⟨iid, s, (k : Int) + 1⟩ := by
  have key : ∀ L : List String, s ∈ L →
      ((L.map (fun t => columnIds cols t)).join).Nodup →
      lastWriteFor ((L.map (fun t => columnWrites t (columnIds cols t) 0)).join) iid =
        some ⟨iid, s, (k : Int) + 1⟩ := by
    intro L
    induction L with
    | nil => intro hmem _; exact absurd hmem (List.not_mem_nil _)
    | cons t rest ih =>
      intro hmem hnd0
      rw [show ((t :: rest).map (fun u => columnWrites u (columnIds cols u) 0)).join =
          columnWrites t (columnIds cols t) 0 ++
            ((rest.map (fun u => columnWrites u (columnIds cols u) 0)).join) from rfl]
      rw [lastWriteFor_append]
      rw [show ((t :: rest).map (fun u => columnIds cols u)).join =
          columnIds cols t ++ ((rest.map (fun u => columnIds cols u)).join) from rfl] at hnd0
      rw [List.nodup_append] at hnd0
      obtain ⟨hnd1, hnd2, hdisj⟩ := hnd0
      by_cases hst : s = t
      · have hiid1 : iid ∈ columnIds cols t := by
          rw [← hst]
          exact List.mem_iff_get?.mpr ⟨k, hk⟩
        have hnone : lastWriteFor
            ((rest.map (fun u => columnWrites u (columnIds cols u) 0)).join) iid =
            none := by
          refine lastWriteFor_eq_none (fun w hw => ?_)
          obtain ⟨part, hpart, hwin⟩ := List.mem_join.mp hw
          obtain ⟨u, hu, hueq⟩ := List.mem_map.mp hpart
          have : w.itemId ∈ (rest.map (fun v => columnIds cols v)).join := by
            refine List.mem_join.mpr ⟨columnIds cols u, List.mem_map.mpr ⟨u, hu, rfl⟩, ?_⟩
            exact mem_columnWrites_itemId (hueq ▸ hwin)
          exact fun hc => hdisj hiid1 (hc ▸ this)
        rw [hnone]
        have hafter : ∀ j, k < j → (columnIds cols t).get? j ≠ some iid := by
          intro j hj hc
          rw [← hst] at hc
          have hlt : k < (columnIds cols s).length := by
            obtain ⟨hlt, -⟩ := List.get?_eq_some.mp hk
            exact hlt
          have : k = j := by
            refine List.getElem?_inj (hst ▸ hlt) (hst ▸ hnd1) ?_
            rw [← List.get?_eq_getElem?, ← List.get?_eq_getElem?, ← hst, hk, hc]
          omega
        have hcol := @lastWriteFor_columnWrites t iid (columnIds cols t) k 0
          (by rw [← hst]; exact hk) hafter
        rw [hcol, ← hst]
        ring_nf
      · have hmem' : s ∈ rest := by
          rcases List.mem_cons.mp hmem with h | h
          · exact absurd h hst
          · exact h
        rw [ih hmem' hnd2]
  exact key VALID_STATUSES hs hnd

/-- An identifier supplied by no column has no write. -/
theorem lastWriteFor_payload_none {cols : ReorderColumns} {iid : String}
    (h : ¬iid ∈ allPayloadIds cols) :
    lastWriteFor (reorderWrites cols) iid = none := by
  refine lastWriteFor_eq_none (fun w hw => ?_)
  intro hc
  refine h ?_
  obtain ⟨part, hpart, hwin⟩ := List.mem_join.mp hw
  obtain ⟨u, hu, hueq⟩ := List.mem_map.mp hpart
  refine List.mem_join.mpr ⟨columnIds cols u, List.mem_map.mpr ⟨u, hu, rfl⟩, ?_⟩
  exact hc ▸ mem_columnWrites_itemId (hueq ▸ hwin)

theorem applyWrites_map_id (pid : String) (now : Nat) :
    ∀ (ws : List OrderWrite) (items : List Item),
      (applyWrites pid now ws items).map (fun it => it.id) =
        items.map (fun it => it.id) := by
  intro ws
  induction ws with
  | nil => intro items; rfl
  | cons w rest ih =>
    intro items
    show (applyWrites pid now rest (applyWrite pid now items w)).map (fun it => it.id) = _
    rw [ih (applyWrite pid now items w)]
    exact setItemOrder_map_id w.itemId pid w.status w.pos now items

theorem applyReorder_map_id (pid : String) (cols : ReorderColumns) (now : Nat)
    (items : List Item) :
    (applyReorder pid cols now items).map (fun it => it.id) =
      items.map (fun it => it.id) := by
  rw [applyReorder_eq_writes]
  exact applyWrites_map_id pid now _ items

/-- In every reachable store the item ids are pairwise distinct. -/
theorem reach_itemIds_nodup {d : StoreData} (hr : Reach d) :
    (d.items.map (fun it => it.id)).Nodup := by
  induction hr with
  | empty => simp [DEFAULT_DATA]
  | createProject _ _ hok ih =>
    obtain ⟨_, _, _, _, hd'⟩ := createProjectSync_ok hok
    rw [hd']
    exact ih
  | createItem _ hfresh hok ih =>
    obtain ⟨_, _, _, hit, hd'⟩ := createItemSync_ok hok
    rw [hd']
    simp only [List.map_append, List.map_cons, List.map_nil]
    rw [List.nodup_append]
    refine ⟨ih, List.nodup_singleton _, ?_⟩
    intro a ha hb
    rw [List.mem_singleton] at hb
    obtain ⟨j, hj, hja⟩ := List.mem_map.mp ha
    refine hfresh j hj ?_
    rw [hja, hb, hit]
  | updateItem _ hok ih =>
    obtain ⟨l1, x, l2, hsplit, hd', _, _, _, happ⟩ := updateItemSync_ok hok
    obtain ⟨hid, _, _, _, _⟩ := applyItemUpdates_ok happ
    rw [hd']
    show ((l1 ++ _ :: l2).map (fun it => it.id)).Nodup
    rw [List.map_append, List.map_cons, hid]
    rw [hsplit, List.map_append, List.map_cons] at ih
    exact ih
  | deleteItem _ hok ih =>
    obtain ⟨l1, l2, hsplit, hd', _, _⟩ := deleteItemSync_ok hok
    rw [hd']
    show ((l1 ++ l2).map (fun it => it.id)).Nodup
    refine List.Nodup.sublist (List.Sublist.map _ ?_) (hsplit ▸ ih)
    exact List.Sublist.append_left (List.sublist_cons_self _ _) l1
  | deleteProject _ ih =>
    unfold deleteProjectSync
    split
    · exact ih
    · exact List.Nodup.sublist (List.Sublist.map _ (List.filter_sublist _)) ih
  | reorder _ hok ih =>
    obtain ⟨_, hd', _⟩ := reorderItemsSync_ok hok
    rw [hd']
    show ((applyReorder _ _ _ _).map (fun it => it.id)).Nodup
    rw [applyReorder_map_id]
    exact ih

/-! ## Inverse characterization of the payload's writes -/

theorem lastWriteFor_mem {ws : List OrderWrite} {iid : String} {w : OrderWrite}
    (h : lastWriteFor ws iid = some w) : w ∈ ws ∧ w.itemId = iid := by
  induction ws with
  | nil => exact absurd h (by simp [lastWriteFor])
  | cons w0 rest ih =>
    rw [lastWriteFor_cons] at h
    cases hl : lastWriteFor rest iid with
    | some w' =>
      rw [hl] at h
      rw [Option.some.injEq] at h
      obtain ⟨hmem, hids⟩ := ih (h ▸ hl)
      exact ⟨List.mem_cons_of_mem _ hmem, hids⟩
    | none =>
      rw [hl] at h
      by_cases hw0 : (w0.itemId == iid) = true
      · rw [show (match (none : Option OrderWrite) with
            | some w' => some w'
            | none => if (w0.itemId == iid) = true then some w0 else none) =
            (if (w0.itemId == iid) = true then some w0 else none) from rfl,
          if_pos hw0] at h
        rw [Option.some.injEq] at h
        exact ⟨h ▸ List.mem_cons_self _ _, h ▸ (by simpa using hw0)⟩
      · rw [show (match (none : Option OrderWrite) with
            | some w' => some w'
            | none => if (w0.itemId == iid) = true then some w0 else none) =
            (if (w0.itemId == iid) = true then some w0 else none) from rfl,
          if_neg hw0] at h
        exact absurd h (by simp)

theorem lastWriteFor_isSome_of_mem {ws : List OrderWrite} {iid : String}
    (h : ∃ w ∈ ws, w.itemId = iid) : (lastWriteFor ws iid).isSome = true := by
  induction ws with
  | nil => obtain ⟨w, hw, _⟩ := h; exact absurd hw (List.not_mem_nil _)
  | cons w0 rest ih =>
    rw [lastWriteFor_cons]
    cases hl : lastWriteFor rest iid with
    | some w' => rfl
    | none =>
      obtain ⟨w, hw, hid⟩ := h
      rcases List.mem_cons.mp hw with hw | hw
      · show (if (w0.itemId == iid) = true then some w0 else none).isSome = true
        rw [if_pos (by rw [← hw]; simpa using hid)]
        rfl
      · have := ih ⟨w, hw, hid⟩
        rw [hl] at this
        exact absurd this (by simp)

theorem mem_columnWrites_charac {s : String} :
    ∀ {ids : List String} {index : Int} {w : OrderWrite},
      w ∈ columnWrites s ids index →
      ∃ k : Nat, ids.get? k = some w.itemId ∧ w.status = s ∧
        w.pos = index + (k : Int) + 1 := by
  intro ids
  induction ids with
  | nil => intro index w hw; exact absurd hw (List.not_mem_nil _)
  | cons a rest ih =>
    intro index w hw
    rw [show columnWrites s (a :: rest) index =
        ⟨a, s, index + 1⟩ :: columnWrites s rest (index + 1) from rfl] at hw
    rcases List.mem_cons.mp hw with hw | hw
    · refine ⟨0, ?_, ?_, ?_⟩
      · simp [hw]
      · simp [hw]
      · rw [hw]
        show index + 1 = index + ((0 : Nat) : Int) + 1
        simp
    · obtain ⟨k, hk, hs, hp⟩ := ih hw
      refine ⟨k + 1, hk, hs, ?_⟩
      rw [hp]
      push_cast
      ring

/-- Every write located by `lastWriteFor` on a payload comes from a
definite column and index of that payload. -/
theorem lastWriteFor_payload_inv {cols : ReorderColumns} {iid : String}
    {w : OrderWrite} (h : lastWriteFor (reorderWrites cols) iid = some w) :
    ∃ s ∈ VALID_STATUSES, ∃ k : Nat,
      (columnIds cols s).get? k = some iid ∧ w = ⟨iid, s, (k : Int) + 1⟩ := by
  obtain ⟨hmem, hid⟩ := lastWriteFor_mem h
  obtain ⟨part, hpart, hwin⟩ := List.mem_join.mp hmem
  obtain ⟨s, hs, hseq⟩ := List.mem_map.mp hpart
  obtain ⟨k, hk, hws, hwp⟩ := mem_columnWrites_charac (hseq ▸ hwin)
  refine ⟨s, hs, k, hid ▸ hk, ?_⟩
  have : w = ⟨w.itemId, w.status, w.pos⟩ := rfl
  rw [this, hid, hws, hwp]
  norm_num

/-! ## Columns after a reorder pass -/

theorem lastWriteResult_id (pid : String) (now : Nat) (ws : List OrderWrite)
    (it : Item) : (lastWriteResult pid now ws it).id = it.id := by
  unfold lastWriteResult
  cases lastWriteFor ws it.id with
  | none => rfl
  | some w =>
    show (if (it.projectId == pid) = true then overwriteItem it w now else it).id = it.id
    by_cases hp : (it.projectId == pid) = true
    · rw [if_pos hp]
      rfl
    · rw [if_neg hp]

theorem lastWriteResult_projectId (pid : String) (now : Nat) (ws : List OrderWrite)
    (it : Item) : (lastWriteResult pid now ws it).projectId = it.projectId := by
  unfold lastWriteResult
  cases lastWriteFor ws it.id with
  | none => rfl
  | some w =>
    show (if (it.projectId == pid) = true then overwriteItem it w now else it).projectId =
      it.projectId
    by_cases hp : (it.projectId == pid) = true
    · rw [if_pos hp]
      rfl
    · rw [if_neg hp]

theorem lastWriteResult_of_ne_pid {pid : String} {it : Item}
    (h : ¬it.projectId = pid) (now : Nat) (ws : List OrderWrite) :
    lastWriteResult pid now ws it = it := by
  unfold lastWriteResult
  cases lastWriteFor ws it.id with
  | none => rfl
  | some w =>
    show (if (it.projectId == pid) = true then overwriteItem it w now else it) = it
    rw [if_neg (by simpa using h)]

/-- A reorder pass never touches another project's columns. -/
theorem columnItems_map_ne_pid {pid pid' : String} (hne : pid' ≠ pid)
    (s' : String) (now : Nat) (ws : List OrderWrite) :
    ∀ l : List Item,
      columnItems (l.map (lastWriteResult pid now ws)) pid' s' =
        columnItems l pid' s' := by
  intro l
  induction l with
  | nil => rfl
  | cons it rest ih =>
    rw [List.map_cons]
    unfold columnItems at ih ⊢
    rw [List.filter_cons, List.filter_cons]
    by_cases hp : it.projectId = pid'
    · have hF : lastWriteResult pid now ws it = it :=
        lastWriteResult_of_ne_pid (fun hc => hne (hp ▸ hc ▸ rfl)) now ws
      rw [hF, ih]
    · have h1 : (it.projectId == pid' && it.status == s') = false := by
        simp [hp]
      have h2 : ((lastWriteResult pid now ws it).projectId == pid' &&
          (lastWriteResult pid now ws it).status == s') = false := by
        rw [lastWriteResult_projectId]
        simp [hp]
      rw [h1, h2]
      simp only [Bool.false_eq_true, if_false]
      exact ih

/-- Each member of a project column after a full-cover, duplicate-free
reorder pass is the item supplied at some index of that column's sequence,
carrying position index + 1. -/
theorem reorder_column_member {items : List Item} {pid : String}
    {cols : ReorderColumns} {now : Nat}
    (hnd : (items.map (fun it => it.id)).Nodup)
    (hcov : ∀ it ∈ items, it.projectId = pid → it.id ∈ allPayloadIds cols)
    {s' : String} {it' : Item}
    (hmem : it' ∈ columnItems (applyReorder pid cols now items) pid s') :
    ∃ k : Nat, (columnIds cols s').get? k = some it'.id ∧
      it'.position = (k : Int) + 1 ∧ it'.status = s' ∧
      ∃ it0 ∈ items, it' = overwriteItem it0 ⟨it'.id, s', (k : Int) + 1⟩ now := by
  rw [applyReorder_eq_map hnd] at hmem
  unfold columnItems at hmem
  obtain ⟨hmem, hpred⟩ := List.mem_filter.mp hmem
  obtain ⟨it0, hit0, hF⟩ := List.mem_map.mp hmem
  simp only [Bool.and_eq_true, beq_iff_eq] at hpred
  have hproj0 : it0.projectId = pid := by
    rw [← lastWriteResult_projectId pid now (reorderWrites cols) it0, hF]
    exact hpred.1
  have hid0 : it0.id ∈ allPayloadIds cols := hcov it0 hit0 hproj0
  have hsome : (lastWriteFor (reorderWrites cols) it0.id).isSome = true := by
    refine lastWriteFor_isSome_of_mem ?_
    obtain ⟨part, hpart, hin⟩ := List.mem_join.mp hid0
    obtain ⟨u, hu, hueq⟩ := List.mem_map.mp hpart
    have : it0.id ∈ (columnWrites u (columnIds cols u) 0).map (fun w => w.itemId) := by
      rw [columnWrites_map_itemId]
      exact hueq ▸ hin
    obtain ⟨w, hw, hweq⟩ := List.mem_map.mp this
    refine ⟨w, ?_, hweq⟩
    refine List.mem_join.mpr ⟨columnWrites u (columnIds cols u) 0, ?_, hw⟩
    exact List.mem_map.mpr ⟨u, hu, rfl⟩
  obtain ⟨w, hw⟩ := Option.isSome_iff_exists.mp hsome
  obtain ⟨s0, hs0, k, hk, hweq⟩ := lastWriteFor_payload_inv hw
  have hF' : it' = overwriteItem it0 w now := by
    rw [← hF]
    unfold lastWriteResult
    rw [hw]
    show (if (it0.projectId == pid) = true then overwriteItem it0 w now else it0) =
      overwriteItem it0 w now
    rw [if_pos (by simpa using hproj0)]
  have hstat : it'.status = w.status := by rw [hF']; rfl
  have hpos : it'.position = w.pos := by rw [hF']; rfl
  have hidd : it'.id = it0.id := by rw [hF']; rfl
  have hs0eq : s0 = s' := by
    rw [hweq] at hstat
    rw [← hpred.2, hstat]
  refine ⟨k, ?_, ?_, hpred.2, it0, hit0, ?_⟩
  · rw [hidd, ← hs0eq]
    exact hk
  · rw [hpos, hweq]
  · rw [hF', hweq, hs0eq]
    rfl

/-- Conversely, each supplied identifier owned by the project lands in its
column at position index + 1. -/
theorem reorder_column_surj {items : List Item} {pid : String}
    {cols : ReorderColumns} {now : Nat}
    (hnd : (items.map (fun it => it.id)).Nodup)
    (hpnd : (allPayloadIds cols).Nodup)
    {s : String} (hs : s ∈ VALID_STATUSES) {k : Nat} {iid : String}
    (hk : (columnIds cols s).get? k = some iid)
    {it0 : Item} (hit0 : it0 ∈ items) (hpid : it0.projectId = pid)
    (hiid : it0.id = iid) :
    overwriteItem it0 ⟨iid, s, (k : Int) + 1⟩ now ∈
      columnItems (applyReorder pid cols now items) pid s := by
  rw [applyReorder_eq_map hnd]
  unfold columnItems
  refine List.mem_filter.mpr ⟨?_, by simp [overwriteItem, hpid]⟩
  refine List.mem_map.mpr ⟨it0, hit0, ?_⟩
  unfold lastWriteResult
  rw [hiid, lastWriteFor_payload hs hk hpnd]
  show (if (it0.projectId == pid) = true then
      overwriteItem it0 ⟨iid, s, (k : Int) + 1⟩ now else it0) =
    overwriteItem it0 ⟨iid, s, (k : Int) + 1⟩ now
  rw [if_pos (by simpa using hpid)]

/-! ## C2 — the per-column position invariant -/

/-- C2 fails as stated: a bulk reorder whose sequences do not cover all of
the project's items can leave two items of one `(project, status)` pair on
the same position.  From the empty store: create a project, create items
`a` (backlog, position 1) and `b` (backlog, position 2), then reorder with
`backlog = ["b"]` — `b` moves to position 1 while `a` is left unchanged at
position 1. -/
theorem order_invariant_counterexample :
    ¬(∀ d : StoreData, Reach d → OrderInvariant d) := by
  intro hall
  have h1 : Reach (⟨[⟨"p", "n", "k", 0⟩], []⟩ : StoreData) :=
    @Reach.createProject DEFAULT_DATA "n" "k" "p" 0 ⟨"p", "n", "k", 0⟩
      ⟨[⟨"p", "n", "k", 0⟩], []⟩ Reach.empty (by simp [DEFAULT_DATA]) (by rfl)
  have h2 : Reach (⟨[⟨"p", "n", "k", 0⟩],
      [⟨"a", "p", "A", "", "backlog", 1, 0, 0⟩]⟩ : StoreData) :=
    @Reach.createItem ⟨[⟨"p", "n", "k", 0⟩], []⟩ "p" "A" "" "backlog" "a" 0
      ⟨"a", "p", "A", "", "backlog", 1, 0, 0⟩
      ⟨[⟨"p", "n", "k", 0⟩], [⟨"a", "p", "A", "", "backlog", 1, 0, 0⟩]⟩
      h1 (by simp) (by rfl)
  have h3 : Reach (⟨[⟨"p", "n", "k", 0⟩],
      [⟨"a", "p", "A", "", "backlog", 1, 0, 0⟩,
       ⟨"b", "p", "B", "", "backlog", 2, 0, 0⟩]⟩ : StoreData) :=
    @Reach.createItem ⟨[⟨"p", "n", "k", 0⟩], [⟨"a", "p", "A", "", "backlog", 1, 0, 0⟩]⟩
      "p" "B" "" "backlog" "b" 0
      ⟨"b", "p", "B", "", "backlog", 2, 0, 0⟩
      ⟨[⟨"p", "n", "k", 0⟩],
       [⟨"a", "p", "A", "", "backlog", 1, 0, 0⟩,
        ⟨"b", "p", "B", "", "backlog", 2, 0, 0⟩]⟩
      h2 (by decide) (by rfl)
  have h4 : Reach (⟨[⟨"p", "n", "k", 0⟩],
      [⟨"a", "p", "A", "", "backlog", 1, 0, 0⟩,
       ⟨"b", "p", "B", "", "backlog", 1, 0, 0⟩]⟩ : StoreData) :=
    @Reach.reorder
      ⟨[⟨"p", "n", "k", 0⟩],
       [⟨"a", "p", "A", "", "backlog", 1, 0, 0⟩,
        ⟨"b", "p", "B", "", "backlog", 2, 0, 0⟩]⟩
      "p" ⟨["b"], [], [], []⟩ 0
      [⟨"a", "p", "A", "", "backlog", 1, 0, 0⟩,
       ⟨"b", "p", "B", "", "backlog", 1, 0, 0⟩]
      ⟨[⟨"p", "n", "k", 0⟩],
       [⟨"a", "p", "A", "", "backlog", 1, 0, 0⟩,
        ⟨"b", "p", "B", "", "backlog", 1, 0, 0⟩]⟩
      h3 (by rfl)
  exact absurd (hall _ h4) (by decide)

/-- C2 amended: the invariant — within each `(project, status)` pair no
two items share a position — is preserved by project creation, item
creation, single-item update, item deletion and project deletion; a bulk
reorder preserves (indeed re-establishes) it provided every item of the
project appears in the supplied sequences, but a reorder whose sequences
omit items of the project can break it. -/
theorem order_invariant_amended :
    (∀ (d : StoreData) (name key newId : String) (now : Nat) (p : Project)
        (d' : StoreData), OrderInvariant d →
      createProjectSync d name key newId now = .ok (p, d') → OrderInvariant d') ∧
    (∀ (d : StoreData) (pid title desc status newId : String) (now : Nat)
        (it : Item) (d' : StoreData), OrderInvariant d →
      createItemSync d pid title desc status newId now = .ok (it, d') →
      OrderInvariant d') ∧
    (∀ (d : StoreData) (pid iid : String) (upd : ItemUpdates) (now : Nat)
        (it : Item) (d' : StoreData), OrderInvariant d →
      updateItemSync d pid iid upd now = .ok (it, d') → OrderInvariant d') ∧
    (∀ (d : StoreData) (pid iid : String) (it : Item) (d' : StoreData),
      OrderInvariant d →
      deleteItemSync d pid iid = .ok (it, d') → OrderInvariant d') ∧
    (∀ (d : StoreData) (pid : String), OrderInvariant d →
      OrderInvariant (deleteProjectSync d pid).2) ∧
    (∀ (d : StoreData) (pid : String) (cols : ReorderColumns) (now : Nat)
        (resp : List Item) (d' : StoreData), OrderInvariant d →
      (d.items.map (fun it => it.id)).Nodup →
      (∀ it ∈ d.items, it.projectId = pid → it.id ∈ allPayloadIds cols) →
      reorderItemsSync d pid cols now = .ok (resp, d') → OrderInvariant d') := by
  refine ⟨?_, ?_, ?_, ?_, ?_, ?_⟩
  · -- project creation leaves the items untouched
    intro d name key newId now p d' hinv hok
    obtain ⟨_, _, _, _, hd'⟩ := createProjectSync_ok hok
    intro q s
    have hitems : d'.items = d.items := by rw [hd']
    rw [hitems]
    exact hinv q s
  · -- item creation appends strictly above the pair's maximum
    intro d pid title desc status newId now it d' hinv hok
    obtain ⟨_, _, _, hit, hd'⟩ := createItemSync_ok hok
    intro q s
    have hitems : d'.items = d.items ++ [it] := by rw [hd']
    rw [hitems]
    unfold columnItems
    rw [List.filter_append]
    by_cases hmatch : (it.projectId == q && it.status == s) = true
    · have hfil : List.filter (fun j => j.projectId == q && j.status == s) [it] = [it] := by
        simp only [List.filter_cons, hmatch, List.filter_nil]
        rfl
      rw [hfil, List.map_append]
      rw [List.nodup_append]
      refine ⟨hinv q s, by simp, ?_⟩
      intro y hy hz
      rw [List.map_cons, List.map_nil, List.mem_singleton] at hz
      obtain ⟨j, hj, hjy⟩ := List.mem_map.mp hy
      simp only [Bool.and_eq_true, beq_iff_eq] at hmatch
      have hq : q = pid := by rw [← hmatch.1, hit]
      have hss : s = status := by rw [← hmatch.2, hit]
      have hlt : j.position < it.position := by
        rw [hit]
        refine lt_nextPositionForStatus j ?_
        rw [← hq, ← hss]
        exact hj
      rw [← hjy] at hz
      rw [hz] at hlt
      exact absurd hlt (lt_irrefl _)
    · have hfil : List.filter (fun j => j.projectId == q && j.status == s) [it] = [] := by
        simp only [List.filter_cons, hmatch, List.filter_nil]
        rfl
      rw [hfil, List.append_nil]
      exact hinv q s
  · -- single-item update
    intro d pid iid upd now it d' hinv hok
    obtain ⟨l1, x, l2, hsplit, hd', _, hxid, hxpid, happ⟩ := updateItemSync_ok hok
    obtain ⟨hid, hpr, _, hkeep, hmove⟩ := applyItemUpdates_ok happ
    intro q s
    have hitems : d'.items = l1 ++ it :: l2 := by rw [hd']
    have hinv' := hinv q s
    rw [hsplit] at hinv'
    rw [hitems]
    unfold columnItems at hinv' ⊢
    rw [List.filter_append, List.filter_cons] at hinv' ⊢
    rcases hstatus : upd.status with _ | s0
    · -- no status field: status and position are untouched
      obtain ⟨hst, hpos⟩ := hkeep (Or.inl hstatus)
      have hcond : (it.projectId == q && it.status == s) =
          (x.projectId == q && x.status == s) := by
        rw [hpr, hst]
      rw [hcond]
      by_cases hx : (x.projectId == q && x.status == s) = true
      · rw [hx] at hinv' ⊢
        simp only [if_true] at hinv' ⊢
        rw [List.map_append, List.map_cons] at hinv' ⊢
        rw [hpos]
        exact hinv'
      · rw [Bool.not_eq_true] at hx
        rw [hx] at hinv' ⊢
        simp only [Bool.false_eq_true, if_false] at hinv' ⊢
        exact hinv'
    · by_cases hchange : s0 = x.status
      · -- status supplied but unchanged
        obtain ⟨hst, hpos⟩ := hkeep (Or.inr (by rw [hstatus, hchange]))
        have hcond : (it.projectId == q && it.status == s) =
            (x.projectId == q && x.status == s) := by
          rw [hpr, hst]
        rw [hcond]
        by_cases hx : (x.projectId == q && x.status == s) = true
        · rw [hx] at hinv' ⊢
          simp only [if_true] at hinv' ⊢
          rw [List.map_append, List.map_cons] at hinv' ⊢
          rw [hpos]
          exact hinv'
        · rw [Bool.not_eq_true] at hx
          rw [hx] at hinv' ⊢
          simp only [Bool.false_eq_true, if_false] at hinv' ⊢
          exact hinv'
      · -- a real move: the item lands above the destination column
        obtain ⟨hst, hpos⟩ := hmove s0 hstatus hchange
        by_cases hB : (it.projectId == q && it.status == s) = true
        · -- the updated item belongs to the inspected pair: destination pair
          simp only [Bool.and_eq_true, beq_iff_eq] at hB
          have hq : q = pid := by rw [← hB.1, hpr, hxpid]
          have hs : s = s0 := by rw [← hB.2, hst]
          have hA : (x.projectId == q && x.status == s) = false := by
            simp only [Bool.and_eq_true, beq_iff_eq, Bool.and_eq_false_imp]
            intro _
            rw [hs]
            simp only [beq_eq_false_iff_ne, ne_eq]
            exact fun hc => hchange hc.symm
          rw [hA] at hinv'
          simp only [Bool.false_eq_true, if_false] at hinv'
          rw [if_pos (by simp [hB.1, hB.2])]
          rw [List.map_append, List.map_cons]
          rw [List.nodup_middle, List.nodup_cons]
          rw [List.map_append] at hinv'
          refine ⟨?_, hinv'⟩
          rw [← List.map_append]
          intro hmem
          obtain ⟨j, hj, hjy⟩ := List.mem_map.mp hmem
          have hjcol : j ∈ columnItems d.items pid s0 := by
            unfold columnItems
            rw [hsplit, List.filter_append, List.filter_cons]
            rw [show (x.projectId == pid && x.status == s0) = false by
              simp only [Bool.and_eq_true, beq_iff_eq, Bool.and_eq_false_imp]
              intro _
              simp only [beq_eq_false_iff_ne, ne_eq]
              exact fun hc => hchange hc.symm]
            simp only [Bool.false_eq_true, if_false]
            rw [← hq, ← hs]
            exact List.mem_append.mpr
              (by
                rcases List.mem_append.mp hj with hj | hj
                · exact Or.inl hj
                · exact Or.inr hj)
          have := lt_nextPositionForStatus j hjcol
          rw [← hpos] at this
          rw [hjy] at this
          exact absurd this (lt_irrefl _)
        · -- the updated item is outside the pair: at worst the pair shrinks
          rw [Bool.not_eq_true] at hB
          rw [hB]
          simp only [Bool.false_eq_true, if_false]
          by_cases hA : (x.projectId == q && x.status == s) = true
          · rw [hA] at hinv'
            simp only [if_true] at hinv'
            rw [List.map_append, List.map_cons] at hinv'
            rw [List.map_append]
            rw [List.nodup_middle, List.nodup_cons] at hinv'
            exact hinv'.2
          · rw [Bool.not_eq_true] at hA
            rw [hA] at hinv'
            simp only [Bool.false_eq_true, if_false] at hinv'
            exact hinv'
  · -- deletion shrinks columns
    intro d pid iid it d' hinv hok
    obtain ⟨l1, l2, hsplit, hd', _, _⟩ := deleteItemSync_ok hok
    intro q s
    have hitems : d'.items = l1 ++ l2 := by rw [hd']
    rw [hitems]
    refine List.Nodup.sublist (List.Sublist.map _ (List.Sublist.filter _ ?_))
      (hsplit ▸ hinv q s)
    exact List.Sublist.append_left (List.sublist_cons_self _ _) l1
  · -- project deletion filters the items
    intro d pid hinv
    unfold deleteProjectSync
    split
    · exact hinv
    · intro q s
      exact List.Nodup.sublist
        (List.Sublist.map _ (List.Sublist.filter _ (List.filter_sublist _))) (hinv q s)
  · -- full-cover bulk reorder
    intro d pid cols now resp d' hinv hnd hcov hok
    obtain ⟨_, hd', _⟩ := reorderItemsSync_ok hok
    intro q s
    have hitems : d'.items = applyReorder pid cols now d.items := by rw [hd']
    rw [hitems]
    by_cases hq : q = pid
    · subst hq
      have hids' : ((applyReorder q cols now d.items).map (fun j => j.id)).Nodup := by
        rw [applyReorder_map_id]
        exact hnd
      have hitemnd : (applyReorder q cols now d.items).Nodup :=
        List.Nodup.of_map _ hids'
      have hcolnd : (columnItems (applyReorder q cols now d.items) q s).Nodup :=
        List.Nodup.filter _ hitemnd
      refine List.Nodup.map_on ?_ hcolnd
      intro x hx y hy hpos
      obtain ⟨kx, hkx, hpx, _, _⟩ := reorder_column_member hnd hcov hx
      obtain ⟨ky, hky, hpy, _, _⟩ := reorder_column_member hnd hcov hy
      have hkk : kx = ky := by
        rw [hpx, hpy] at hpos
        omega
      have hxy : x.id = y.id := by
        rw [hkk, hky] at hkx
        injection hkx with h
        exact h.symm
      have hcolids : ((columnItems (applyReorder q cols now d.items) q s).map
          (fun j => j.id)).Nodup :=
        List.Nodup.sublist (List.Sublist.map _ (List.filter_sublist _)) hids'
      exact List.inj_on_of_nodup_map hcolids hx hy hxy
    · rw [applyReorder_eq_map hnd, columnItems_map_ne_pid hq s now _]
      exact hinv q s

/-- Witness for C2 amended: the invariant survives an item creation and a
full-cover reorder on a concrete two-item board. -/
theorem order_invariant_amended_witness :
    OrderInvariant
      ⟨[⟨"p", "n", "k", 0⟩],
       [⟨"a", "p", "A", "", "backlog", 1, 0, 0⟩,
        ⟨"b", "p", "B", "", "backlog", 2, 0, 0⟩]⟩ ∧
    OrderInvariant
      ⟨[⟨"p", "n", "k", 0⟩],
       [⟨"a", "p", "A", "", "backlog", 2, 0, 7⟩,
        ⟨"b", "p", "B", "", "backlog", 1, 0, 7⟩]⟩ :=
  ⟨order_invariant_amended.2.1
    ⟨[⟨"p", "n", "k", 0⟩], [⟨"a", "p", "A", "", "backlog", 1, 0, 0⟩]⟩
    "p" "B" "" "backlog" "b" 0
    ⟨"b", "p", "B", "", "backlog", 2, 0, 0⟩
    ⟨[⟨"p", "n", "k", 0⟩],
     [⟨"a", "p", "A", "", "backlog", 1, 0, 0⟩,
      ⟨"b", "p", "B", "", "backlog", 2, 0, 0⟩]⟩
    (by decide) (by rfl),
   order_invariant_amended.2.2.2.2.2
    ⟨[⟨"p", "n", "k", 0⟩],
     [⟨"a", "p", "A", "", "backlog", 1, 0, 0⟩,
      ⟨"b", "p", "B", "", "backlog", 2, 0, 0⟩]⟩
    "p" ⟨["b", "a"], [], [], []⟩ 7
    [⟨"b", "p", "B", "", "backlog", 1, 0, 7⟩,
     ⟨"a", "p", "A", "", "backlog", 2, 0, 7⟩]
    ⟨[⟨"p", "n", "k", 0⟩],
     [⟨"a", "p", "A", "", "backlog", 2, 0, 7⟩,
      ⟨"b", "p", "B", "", "backlog", 1, 0, 7⟩]⟩
    (by decide) (by decide) (by decide) (by rfl)⟩

/-! ## The grouped response -/

theorem getColumn_pushToColumn (acc : List (String × List Item)) (s0 : String)
    (it : Item) (s : String) :
    getColumn (pushToColumn acc s0 it) s =
      if s0 = s then getColumn acc s ++ [it] else getColumn acc s := by
  induction acc with
  | nil =>
    show getColumn [(s0, [it])] s = _
    unfold getColumn
    by_cases hs : s0 = s
    · rw [if_pos hs]
      rw [show List.find? (fun kv => kv.1 == s) [(s0, [it])] = some (s0, [it]) from by
        rw [List.find?_cons_of_pos]
        simpa using hs]
      rw [show List.find? (fun kv => kv.1 == s) ([] : List (String × List Item)) =
        none from rfl]
      rfl
    · rw [if_neg hs]
      rw [show List.find? (fun kv => kv.1 == s) [(s0, [it])] = none from by
        rw [List.find?_cons_of_neg, List.find?_nil]
        simpa using hs]
      rfl
  | cons kv rest ih =>
    obtain ⟨k, col⟩ := kv
    show getColumn (if (k == s0) = true then (k, col ++ [it]) :: rest
      else (k, col) :: pushToColumn rest s0 it) s = _
    by_cases hk0 : k = s0
    · rw [if_pos (by simpa using hk0)]
      unfold getColumn
      by_cases hks : k = s
      · rw [List.find?_cons_of_pos _ (by simpa using hks),
          List.find?_cons_of_pos _ (by simpa using hks)]
        rw [if_pos (by rw [← hk0, hks])]
      · rw [List.find?_cons_of_neg _ (by simpa using hks),
          List.find?_cons_of_neg _ (by simpa using hks)]
        rw [if_neg (by rw [← hk0]; exact hks)]
    · rw [if_neg (by simpa using hk0)]
      unfold getColumn
      by_cases hks : k = s
      · rw [List.find?_cons_of_pos _ (by simpa using hks),
          List.find?_cons_of_pos _ (by simpa using hks)]
        rw [if_neg (by rw [hks] at hk0; exact fun hc => hk0 hc.symm)]
      · rw [List.find?_cons_of_neg _ (by simpa using hks),
          List.find?_cons_of_neg _ (by simpa using hks)]
        exact ih

theorem getColumn_foldl (s : String) :
    ∀ (l : List Item) (acc : List (String × List Item)),
      getColumn (l.foldl (fun a it => pushToColumn a it.status it) acc) s =
        getColumn acc s ++ l.filter (fun it => it.status == s) := by
  intro l
  induction l with
  | nil => intro acc; simp
  | cons it rest ih =>
    intro acc
    rw [List.foldl_cons, ih, getColumn_pushToColumn, List.filter_cons]
    by_cases hs : it.status = s
    · rw [if_pos hs, if_pos (by simpa using hs)]
      simp
    · rw [if_neg hs, if_neg (by simpa using hs)]

theorem getColumn_init (s : String) :
    getColumn (VALID_STATUSES.map (fun t => (t, ([] : List Item)))) s = [] := by
  unfold getColumn
  cases hf : List.find? (fun kv => kv.1 == s)
      (VALID_STATUSES.map (fun t => (t, ([] : List Item)))) with
  | none => rfl
  | some kv =>
    have hmem := List.mem_of_find?_eq_some hf
    obtain ⟨t, _, hteq⟩ := List.mem_map.mp hmem
    rw [← hteq]

/-- `columns[status]` of the grouped response is exactly the status's
items in input order. -/
theorem getColumn_groupItemsByStatus (l : List Item) (s : String) :
    getColumn (groupItemsByStatus l) s = l.filter (fun it => it.status == s) := by
  unfold groupItemsByStatus
  rw [getColumn_foldl, getColumn_init, List.nil_append]

/-! ## The sort comparator is total and transitive -/

theorem itemRel_total : ∀ a b : Item, itemRel a b ∨ itemRel b a := by
  intro a b
  unfold itemRel itemLe
  simp only [Bool.or_eq_true, Bool.and_eq_true, decide_eq_true_eq]
  omega

theorem itemRel_trans : ∀ a b c : Item, itemRel a b → itemRel b c → itemRel a c := by
  intro a b c
  unfold itemRel itemLe
  simp only [Bool.or_eq_true, Bool.and_eq_true, decide_eq_true_eq]
  omega

instance : IsTotal Item itemRel := ⟨itemRel_total⟩

instance : IsTrans Item itemRel := ⟨itemRel_trans⟩

theorem sortItems_sorted (items : List Item) :
    (sortItems items).Pairwise itemRel :=
  List.sorted_insertionSort itemRel items

theorem sortItems_perm (items : List Item) : List.Perm (sortItems items) items :=
  List.perm_insertionSort itemRel items

/-- A position-sorted list whose members realize exactly the indices of an
id sequence (position = offset + index + 1, both ways) is that sequence:
ids in order, positions consecutive. -/
theorem sorted_column_unique :
    ∀ (ids : List String) (o : Int) (F : List Item),
      F.Pairwise (fun a b => a.position ≤ b.position) →
      (∀ it ∈ F, ∃ k : Nat, ids.get? k = some it.id ∧
        it.position = o + (k : Int) + 1) →
      (∀ (k : Nat) (iid : String), ids.get? k = some iid →
        ∃ it ∈ F, it.id = iid ∧ it.position = o + (k : Int) + 1) →
      (F.map (fun it => it.id)).Nodup → ids.Nodup →
      F.map (fun it => it.id) = ids ∧
      F.map (fun it => it.position) =
        (List.range ids.length).map (fun k : Nat => o + (k : Int) + 1) := by
  intro ids
  induction ids with
  | nil =>
    intro o F _ h2 _ _ _
    have hF : F = [] := by
      cases F with
      | nil => rfl
      | cons f0 F' =>
        obtain ⟨k, hk, _⟩ := h2 f0 (List.mem_cons_self _ _)
        exact absurd hk (by simp)
    rw [hF]
    exact ⟨rfl, rfl⟩
  | cons iid rest ih =>
    intro o F h1 h2 h3 h4 h5
    obtain ⟨it0, hit0, hid0, hpos0⟩ := h3 0 iid rfl
    cases F with
    | nil => exact absurd hit0 (List.not_mem_nil _)
    | cons f0 F' =>
      rw [List.map_cons, List.nodup_cons] at h4
      have hf0 : f0 = it0 := by
        rcases List.mem_cons.mp hit0 with h | h
        · exact h.symm
        · obtain ⟨k0, hk0, hp0⟩ := h2 f0 (List.mem_cons_self _ _)
          have hle : f0.position ≤ it0.position := (List.pairwise_cons.mp h1).1 it0 h
          have hk00 : k0 = 0 := by
            rw [hpos0, hp0] at hle
            push_cast at hle
            omega
          rw [hk00] at hk0
          have hfid : f0.id = iid := (by simpa using hk0 : iid = f0.id).symm
          exact absurd (List.mem_map.mpr ⟨it0, h, by rw [hid0, ← hfid]⟩) h4.1
      rw [← hf0] at hid0 hpos0
      have h1' := (List.pairwise_cons.mp h1).2
      have hheadid : ¬f0.id ∈ F'.map (fun it => it.id) := h4.1
      have h5' := (List.nodup_cons.mp h5).2
      have hiidrest : ¬iid ∈ rest := (List.nodup_cons.mp h5).1
      have h2' : ∀ it ∈ F', ∃ k : Nat, rest.get? k = some it.id ∧
          it.position = (o + 1) + (k : Int) + 1 := by
        intro it hit
        obtain ⟨k, hk, hp⟩ := h2 it (List.mem_cons_of_mem _ hit)
        cases k with
        | zero =>
          have hidit : it.id = iid := (by simpa using hk : iid = it.id).symm
          exact absurd (List.mem_map.mpr ⟨it, hit, by rw [hidit, ← hid0]⟩) hheadid
        | succ k' =>
          refine ⟨k', hk, ?_⟩
          rw [hp]
          push_cast
          ring
      have h3' : ∀ (k' : Nat) (iid' : String), rest.get? k' = some iid' →
          ∃ it ∈ F', it.id = iid' ∧ it.position = (o + 1) + (k' : Int) + 1 := by
        intro k' iid' hk'
        obtain ⟨it, hit, hitid, hitpos⟩ := h3 (k' + 1) iid' hk'
        rcases List.mem_cons.mp hit with h | h
        · have hii : iid' = iid := by rw [← hitid, h, hid0]
          rw [hii] at hk'
          exact absurd (List.mem_iff_get?.mpr ⟨k', hk'⟩) hiidrest
        · refine ⟨it, h, hitid, ?_⟩
          rw [hitpos]
          push_cast
          ring
      obtain ⟨hids, hposs⟩ := ih (o + 1) F' h1' h2' h3' h4.2 h5'
      constructor
      · rw [List.map_cons, hids, hid0]
      · rw [List.map_cons, hposs]
        simp only [List.length_cons, List.range_succ_eq_map, List.map_cons,
          List.map_map]
        congr 1
        refine List.map_congr_left (fun k hk => ?_)
        simp only [Function.comp_apply]
        push_cast
        ring

/-- Between two items of equal status the sort comparator orders by
position. -/
theorem itemRel_position_le {a b : Item} (hs : a.status = b.status)
    (h : itemRel a b) : a.position ≤ b.position := by
  unfold itemRel itemLe at h
  rw [hs] at h
  simpa [lt_irrefl] using h

/-! ## C1 — exact positions and the full-permutation response -/

/-- C1 fails as stated: when one identifier appears at two indices of a
supplied sequence, both writes hit the same stored item (the first match),
so the later index wins and the item does not end at `earlier index + 1`.
Payload `backlog = ["a", "a"]` on a one-item board leaves `a` at
position 2, although index 0 names it and the claim demands position 1. -/
theorem reorder_exact_positions_counterexample :
    ∃ (resp : List Item) (d' : StoreData),
      reorderItemsSync
        ⟨[⟨"p", "n", "k", 0⟩], [⟨"a", "p", "A", "", "backlog", 1, 0, 0⟩]⟩ "p"
        ⟨["a", "a"], [], [], []⟩ 2 = .ok (resp, d') ∧
      (columnIds ⟨["a", "a"], [], [], []⟩ "backlog").get? 0 = some "a" ∧
      (∃ it ∈ (⟨[⟨"p", "n", "k", 0⟩],
          [⟨"a", "p", "A", "", "backlog", 1, 0, 0⟩]⟩ : StoreData).items,
        it.id = "a" ∧ it.projectId = "p") ∧
      ∀ it' ∈ d'.items, it'.id = "a" → ¬it'.position = (0 : Int) + 1 := by
  refine ⟨[⟨"a", "p", "A", "", "backlog", 2, 0, 2⟩],
    ⟨[⟨"p", "n", "k", 0⟩], [⟨"a", "p", "A", "", "backlog", 2, 0, 2⟩]⟩,
    by rfl, by rfl, ?_, ?_⟩
  · exact ⟨_, List.mem_cons_self _ _, rfl, rfl⟩
  · decide

/-- Under duplicate-free ids on both sides and exact cover of the project's
items by the payload, the sorted project listing after the write pass
groups, per status, into exactly the supplied sequence with consecutive
positions. -/
theorem reorder_full_cover_response {items : List Item} {pid : String}
    {cols : ReorderColumns} {now : Nat}
    (hnd : (items.map (fun it => it.id)).Nodup)
    (hpnd : (allPayloadIds cols).Nodup)
    (hcov : ∀ it ∈ items, it.projectId = pid → it.id ∈ allPayloadIds cols)
    (hsurj : ∀ iid ∈ allPayloadIds cols,
      ∃ it ∈ items, it.id = iid ∧ it.projectId = pid)
    {s : String} (hs : s ∈ VALID_STATUSES) :
    (getColumn (groupItemsByStatus (sortItems
        ((applyReorder pid cols now items).filter
          (fun it => it.projectId == pid)))) s).map (fun it => it.id) =
      columnIds cols s ∧
    (getColumn (groupItemsByStatus (sortItems
        ((applyReorder pid cols now items).filter
          (fun it => it.projectId == pid)))) s).map (fun it => it.position) =
      (List.range (columnIds cols s).length).map (fun k : Nat => (k : Int) + 1) := by
  rw [getColumn_groupItemsByStatus]
  obtain ⟨R, hR⟩ : ∃ R, R = sortItems ((applyReorder pid cols now items).filter
      (fun it => it.projectId == pid)) := ⟨_, rfl⟩
  rw [← hR]
  have hsorted : R.Pairwise itemRel := by
    rw [hR]
    exact sortItems_sorted _
  have hperm : List.Perm R ((applyReorder pid cols now items).filter
      (fun it => it.projectId == pid)) := by
    rw [hR]
    exact sortItems_perm _
  have hmemiff : ∀ x : Item, x ∈ R.filter (fun it => it.status == s) ↔
      x ∈ columnItems (applyReorder pid cols now items) pid s := by
    intro x
    unfold columnItems
    rw [List.mem_filter, hperm.mem_iff, List.mem_filter, List.mem_filter]
    simp only [Bool.and_eq_true]
    tauto
  have hnd' : ((applyReorder pid cols now items).map (fun it => it.id)).Nodup := by
    rw [applyReorder_map_id]
    exact hnd
  have hndR : (R.map (fun it => it.id)).Nodup :=
    (hperm.map (fun it => it.id)).nodup_iff.mpr
      (List.Nodup.sublist ((List.filter_sublist _).map _) hnd')
  have hndF : ((R.filter (fun it => it.status == s)).map (fun it => it.id)).Nodup :=
    List.Nodup.sublist ((List.filter_sublist _).map _) hndR
  have hpairF : (R.filter (fun it => it.status == s)).Pairwise
      (fun a b => a.position ≤ b.position) := by
    refine List.Pairwise.imp_of_mem ?_ (hsorted.filter _)
    intro a b ha hb hrel
    have hsa : a.status = s := by simpa using (List.mem_filter.mp ha).2
    have hsb : b.status = s := by simpa using (List.mem_filter.mp hb).2
    exact itemRel_position_le (by rw [hsa, hsb]) hrel
  have h2 : ∀ it ∈ R.filter (fun it => it.status == s),
      ∃ k : Nat, (columnIds cols s).get? k = some it.id ∧
        it.position = (0 : Int) + (k : Int) + 1 := by
    intro it hit
    obtain ⟨k, hk, hp, -, -⟩ := reorder_column_member hnd hcov ((hmemiff it).mp hit)
    exact ⟨k, hk, by rw [hp]; ring⟩
  have h3 : ∀ (k : Nat) (iid : String), (columnIds cols s).get? k = some iid →
      ∃ it ∈ R.filter (fun it => it.status == s),
        it.id = iid ∧ it.position = (0 : Int) + (k : Int) + 1 := by
    intro k iid hk
    have hiidmem : iid ∈ allPayloadIds cols := by
      unfold allPayloadIds
      refine List.mem_join.mpr ⟨columnIds cols s, List.mem_map.mpr ⟨s, hs, rfl⟩, ?_⟩
      exact List.mem_iff_get?.mpr ⟨k, hk⟩
    obtain ⟨it0, hit0, hid0, hpid0⟩ := hsurj iid hiidmem
    refine ⟨overwriteItem it0 ⟨iid, s, (k : Int) + 1⟩ now,
      (hmemiff _).mpr (reorder_column_surj hnd hpnd hs hk hit0 hpid0 hid0),
      hid0, ?_⟩
    show (k : Int) + 1 = 0 + (k : Int) + 1
    ring
  have hndids : (columnIds cols s).Nodup := by
    have hp2 := hpnd
    unfold allPayloadIds at hp2
    rw [List.nodup_flatten] at hp2
    exact hp2.1 _ (List.mem_map.mpr ⟨s, hs, rfl⟩)
  obtain ⟨hids, hposs⟩ := sorted_column_unique (columnIds cols s) 0
    (R.filter (fun it => it.status == s)) hpairF h2 h3 hndF hndids
  refine ⟨hids, ?_⟩
  rw [hposs]
  refine List.map_congr_left (fun k hk => ?_)
  ring

/-- C1 (amended): on a board with pairwise-distinct item ids and a payload
whose identifiers are pairwise distinct across the supplied sequences, a
successful bulk reorder (1) sets the item named at index `k` of a status's
sequence — when it belongs to the project — to that status with position
`k + 1`, (2) leaves every item named in no sequence entirely unchanged,
and (3) whenever the supplied identifiers cover exactly the project's
items, the grouped-by-status response lists, per status, exactly the
supplied sequence in order with positions `1..N`. -/
theorem reorder_exact_positions_amended
    {d : StoreData} {pid : String} {cols : ReorderColumns} {now : Nat}
    {resp : List Item} {d' : StoreData}
    (hnd : (d.items.map (fun it => it.id)).Nodup)
    (hpnd : (allPayloadIds cols).Nodup)
    (hok : reorderItemsSync d pid cols now = .ok (resp, d')) :
    (∀ s ∈ VALID_STATUSES, ∀ (k : Nat) (iid : String),
        (columnIds cols s).get? k = some iid →
        ∀ it' ∈ d'.items, it'.id = iid → it'.projectId = pid →
          it'.status = s ∧ it'.position = (k : Int) + 1) ∧
    (∀ it ∈ d.items, ¬it.id ∈ allPayloadIds cols → it ∈ d'.items) ∧
    ((∀ it ∈ d.items, it.projectId = pid → it.id ∈ allPayloadIds cols) →
      (∀ iid ∈ allPayloadIds cols, ∃ it ∈ d.items, it.id = iid ∧ it.projectId = pid) →
      ∀ s ∈ VALID_STATUSES,
        (getColumn (groupItemsByStatus resp) s).map (fun it => it.id) =
          columnIds cols s ∧
        (getColumn (groupItemsByStatus resp) s).map (fun it => it.position) =
          (List.range (columnIds cols s).length).map (fun k : Nat => (k : Int) + 1)) := by
  simp only [reorderItemsSync] at hok
  split_ifs at hok with hproj
  cases hok
  refine ⟨?_, ?_, ?_⟩
  · intro s hs k iid hk it' hmem' hid' hpid'
    replace hmem' : it' ∈ applyReorder pid cols now d.items := hmem'
    rw [applyReorder_eq_map hnd] at hmem'
    obtain ⟨it0, hit0, heq⟩ := List.mem_map.mp hmem'
    rw [← heq] at hid' hpid'
    rw [lastWriteResult_id] at hid'
    rw [lastWriteResult_projectId] at hpid'
    have hoverw : lastWriteResult pid now (reorderWrites cols) it0 =
        overwriteItem it0 ⟨iid, s, (k : Int) + 1⟩ now := by
      unfold lastWriteResult
      rw [hid', lastWriteFor_payload hs hk hpnd]
      show (if (it0.projectId == pid) = true then
          overwriteItem it0 ⟨iid, s, (k : Int) + 1⟩ now else it0) =
        overwriteItem it0 ⟨iid, s, (k : Int) + 1⟩ now
      rw [if_pos (by simpa using hpid')]
    rw [← heq, hoverw]
    exact ⟨rfl, rfl⟩
  · intro it hit hnot
    show it ∈ applyReorder pid cols now d.items
    rw [applyReorder_eq_map hnd]
    refine List.mem_map.mpr ⟨it, hit, ?_⟩
    unfold lastWriteResult
    rw [lastWriteFor_payload_none hnot]
  · intro hcov hsurj s hs
    exact reorder_full_cover_response hnd hpnd hcov hsurj hs
/-- Witness: the amended C1 theorem applied to a two-item board swapped by
the payload `backlog = ["b", "a"]`. -/
theorem reorder_exact_positions_amended_witness :
    (∀ s ∈ VALID_STATUSES, ∀ (k : Nat) (iid : String),
        (columnIds ⟨["b", "a"], [], [], []⟩ s).get? k = some iid →
        ∀ it' ∈ ([⟨"a", "p", "A", "", "backlog", 2, 0, 3⟩,
            ⟨"b", "p", "B", "", "backlog", 1, 0, 3⟩] : List Item),
          it'.id = iid → it'.projectId = "p" →
          it'.status = s ∧ it'.position = (k : Int) + 1) ∧
    (∀ it ∈ ([⟨"a", "p", "A", "", "backlog", 1, 0, 0⟩,
        ⟨"b", "p", "B", "", "backlog", 2, 0, 0⟩] : List Item),
      ¬it.id ∈ allPayloadIds ⟨["b", "a"], [], [], []⟩ →
      it ∈ ([⟨"a", "p", "A", "", "backlog", 2, 0, 3⟩,
        ⟨"b", "p", "B", "", "backlog", 1, 0, 3⟩] : List Item)) ∧
    ((∀ it ∈ ([⟨"a", "p", "A", "", "backlog", 1, 0, 0⟩,
        ⟨"b", "p", "B", "", "backlog", 2, 0, 0⟩] : List Item),
        it.projectId = "p" → it.id ∈ allPayloadIds ⟨["b", "a"], [], [], []⟩) →
      (∀ iid ∈ allPayloadIds ⟨["b", "a"], [], [], []⟩,
        ∃ it ∈ ([⟨"a", "p", "A", "", "backlog", 1, 0, 0⟩,
          ⟨"b", "p", "B", "", "backlog", 2, 0, 0⟩] : List Item),
          it.id = iid ∧ it.projectId = "p") →
      ∀ s ∈ VALID_STATUSES,
        (getColumn (groupItemsByStatus
            ([⟨"b", "p", "B", "", "backlog", 1, 0, 3⟩,
              ⟨"a", "p", "A", "", "backlog", 2, 0, 3⟩] : List Item)) s).map
          (fun it => it.id) = columnIds ⟨["b", "a"], [], [], []⟩ s ∧
        (getColumn (groupItemsByStatus
            ([⟨"b", "p", "B", "", "backlog", 1, 0, 3⟩,
              ⟨"a", "p", "A", "", "backlog", 2, 0, 3⟩] : List Item)) s).map
          (fun it => it.position) =
          (List.range (columnIds ⟨["b", "a"], [], [], []⟩ s).length).map
            (fun k : Nat => (k : Int) + 1)) :=
  @reorder_exact_positions_amended
    ⟨[⟨"p", "n", "k", 0⟩],
      [⟨"a", "p", "A", "", "backlog", 1, 0, 0⟩,
       ⟨"b", "p", "B", "", "backlog", 2, 0, 0⟩]⟩ "p" ⟨["b", "a"], [], [], []⟩ 3
    [⟨"b", "p", "B", "", "backlog", 1, 0, 3⟩,
     ⟨"a", "p", "A", "", "backlog", 2, 0, 3⟩]
    ⟨[⟨"p", "n", "k", 0⟩],
      [⟨"a", "p", "A", "", "backlog", 2, 0, 3⟩,
       ⟨"b", "p", "B", "", "backlog", 1, 0, 3⟩]⟩
    (by decide) (by decide) (by rfl)

end BacklogPilot
